import Mathlib

set_option maxRecDepth 100000

/-
Verification development for the dxma DirectX 12 sub-allocator
(include/dxma.h, the handle-based variant, and include/dx12_ma.h, the
object-oriented variant).

All machine integers in the source are UINT64 (or UINT32 for heap
indices).  They are modelled as Nat with an explicit reduction modulo
2^64 exactly at the operations where the C code can wrap: the
alignment rounding, the heap-growth size computation
(heap_block_size - size), the offset bump of a split block, and the
size additions performed by the two merge steps of Free.  Heap handles
(ID3D12Heap pointers) are opaque; a created heap is identified by the
dense index it receives at creation, so a handle is modelled as
Option Nat with none standing for nullptr.
-/

namespace Dxma

/-- 2^64, the modulus of UINT64 arithmetic. -/
def M : Nat := 2 ^ 64

/-- DXMA_HEAP_BLOCK_SIZE = 640 * UINT16_MAX (dxma.h). -/
def DXMA_HEAP_BLOCK_SIZE : Nat := 640 * 65535

/-- DX12_MA_HEAP_BLOCK_SIZE = 64 * UINT16_MAX (dx12_ma.h). -/
def DX12_MA_HEAP_BLOCK_SIZE : Nat := 64 * 65535

/-- DXMA_MAX_HEAP_COUNT = DX12_MA_MAX_HEAP_COUNT = 200: the fixed
capacity of the heaps_ array in both variants. -/
def MAX_HEAP_COUNT : Nat := 200

/-- D3D12_HEAP_TYPE_DEFAULT has value 1 in the d3d12 enum; it is the
default-initialised heap type of both Allocation structs. -/
def D3D12_HEAP_TYPE_DEFAULT : Nat := 1

/-- D3D12_HEAP_TYPE_UPLOAD has value 2 in the d3d12 enum. -/
def D3D12_HEAP_TYPE_UPLOAD : Nat := 2

/-- An Allocation as returned by both variants: size, offset within the
heap, heap type, dense heap index, and the heap handle.  The resource
and mapping fields live in the Map/Unmap model further below. -/
structure Allocation where
  size : Nat
  offset : Nat
  heap_type : Nat
  heap_index : Nat
  heap : Option Nat
deriving DecidableEq

/-- A FreeBlock of the singly linked free list; the next pointer is
represented by list structure. -/
structure FreeBlock where
  size : Nat
  offset : Nat
  heap_type : Nat
  heap_index : Nat
  heap : Option Nat
deriving DecidableEq

/-- The Allocation value produced by value initialisation {0} in
dx12_ma (size 0, offset 0, D3D12_HEAP_TYPE_DEFAULT, index 0, null heap). -/
def zeroAllocation : Allocation :=
  ⟨0, 0, D3D12_HEAP_TYPE_DEFAULT, 0, none⟩

/-- size = alignment == 0 ? size : (size + alignment - 1) & ~(alignment - 1)
in UINT64 arithmetic (dxma.h line 318, dx12_ma.h line 166). -/
def roundUp (size alignment : Nat) : Nat :=
  if alignment = 0 then size
  else ((size + alignment - 1) % M) &&& ((M - 1) ^^^ ((alignment - 1) % M))

/-- The free-list scan of dxmaAllocate (dxma.h lines 323-363): walk the
list; a node whose heap type differs is treated as having size 0; the
first node with treated size at least s is consumed, either removed
entirely (exact match) or shrunk in place by s from the front.  Returns
the updated list together with the Allocation built from the fields read
out of the node, or none when no node qualifies. -/
def allocScan (s t : Nat) : List FreeBlock → Option (List FreeBlock × Allocation)
  | [] => none
  | b :: rest =>
    if s ≤ (if b.heap_type ≠ t then 0 else b.size) then
      if (if b.heap_type ≠ t then 0 else b.size) = s then
        some (rest, ⟨s, b.offset, t, b.heap_index, b.heap⟩)
      else
        some ({ b with size := b.size - s, offset := (b.offset + s) % M } :: rest,
              ⟨s, b.offset, t, b.heap_index, b.heap⟩)
    else
      match allocScan s t rest with
      | some (l, a) => some (b :: l, a)
      | none => none

/-- Scan-continuation condition of dxmaFree (dxma.h lines 433-434): keep
walking while the current node describes another heap or has a smaller
offset than the freed allocation. -/
def contB (nb c : FreeBlock) : Bool :=
  c.heap_index != nb.heap_index || c.offset < nb.offset

/-- Forward-merge step of dxmaFree (dxma.h lines 464-470): if the node at
the scan cursor starts exactly where the working block ends and lives in
the same heap, absorb it; otherwise link the working block in front of it. -/
def fwdMerge (w : FreeBlock) : List FreeBlock → List FreeBlock
  | [] => [w]
  | c :: rest =>
    if (w.offset + w.size) % M = c.offset ∧ c.heap_index = w.heap_index then
      { w with size := (w.size + c.size) % M } :: rest
    else
      w :: c :: rest

/-- The insert-with-merge of dxmaFree (dxma.h lines 423-470): split the
list at the first node on which the scan stops; if the node before the
split point ends exactly at the new block and shares its heap, grow it
and discard the new block (backward merge); otherwise splice the new
block in; then attempt the forward merge with the node at the split
point. -/
def insertFree (nb : FreeBlock) (l : List FreeBlock) : List FreeBlock :=
  match (l.takeWhile (contB nb)).getLast? with
  | some p =>
    if (p.offset + p.size) % M = nb.offset ∧ p.heap_index = nb.heap_index then
      (l.takeWhile (contB nb)).dropLast ++
        fwdMerge { p with size := (p.size + nb.size) % M } (l.dropWhile (contB nb))
    else
      l.takeWhile (contB nb) ++ fwdMerge nb (l.dropWhile (contB nb))
  | none => fwdMerge nb (l.dropWhile (contB nb))

/-- The raw heaps_ array store heaps_[i] = v.  List.set leaves the list
unchanged when i is past the end; the Bool records that the C store
would then write out of bounds (undefined behaviour). -/
def arrayStore (l : List (Option Nat)) (i : Nat) (v : Option Nat) :
    List (Option Nat) × Bool :=
  (l.set i v, decide (l.length ≤ i))

/-- Allocator state.  freeList is the linked list hanging off head_;
heapCount is heap_count_; heapsArr is the fixed 200-slot heaps_ array of
handles; oobWrite is a sticky undefined-behaviour marker set when a heap
store lands past the end of heapsArr; heapCaps records, for each created
heap, the capacity requested from ID3D12Device::CreateHeap (the external
contract guarantees the created heap has exactly that capacity); live
records the Allocation objects handed out and not yet freed, which in
diagnostic builds is exactly the pointer-keyed tracked set allocations_. -/
structure AllocatorState where
  freeList : List FreeBlock
  heapCount : Nat
  heapCaps : List Nat
  heapsArr : List (Option Nat)
  oobWrite : Bool
  live : List Allocation
deriving DecidableEq

/-- A freshly constructed Allocator. -/
def initState : AllocatorState :=
  ⟨[], 0, [], List.replicate MAX_HEAP_COUNT none, false, []⟩

/-- dxmaAllocate (dxma.h lines 311-401), parameterised by the configured
block size bs (DXMA_HEAP_BLOCK_SIZE unless overridden).  size == 0
returns without touching the out-parameter (modelled as none).
Otherwise the rounded size is looked up in the free list; on a miss, a
new heap is created (CreateHeap is modelled as always succeeding with a
fresh handle, identified by the new dense index) with capacity
heap_block_size, where heap_block_size = bs unless the UINT64 value
bs - s equals 0, in which case it is s * 4; the handle is stored at
heaps_[heap_count_]; a block covering [s, heap_block_size) of the new
heap is pushed at the head of the list, and the first s bytes become the
returned allocation. -/
def dxmaAllocateFn (bs : Nat) (st : AllocatorState)
    (size heap_type alignment : Nat) : AllocatorState × Option Allocation :=
  if size = 0 then (st, none)
  else
    let s := roundUp size alignment
    match allocScan s heap_type st.freeList with
    | some (l, a) =>
      ({ st with freeList := l, live := st.live ++ [a] }, some a)
    | none =>
      let hbs := if (M + bs - s) % M = 0 then (s * 4) % M else bs
      let pr := arrayStore st.heapsArr st.heapCount (some st.heapCount)
      let nb : FreeBlock :=
        ⟨(M + hbs - s) % M, s, heap_type, st.heapCount, some st.heapCount⟩
      let a : Allocation := ⟨s, 0, heap_type, st.heapCount, some st.heapCount⟩
      ({ freeList := nb :: st.freeList,
         heapCount := st.heapCount + 1,
         heapCaps := st.heapCaps ++ [hbs],
         heapsArr := pr.1,
         oobWrite := st.oobWrite || pr.2,
         live := st.live ++ [a] }, some a)

/-- dxmaFree in the diagnostic build (dxma.h lines 404-471).  The caller
passes a pointer to a previously returned Allocation; idx selects that
pointer in the live list (a dangling or foreign pointer is any idx out
of range, on which RemoveAllocation returns 0 and the call rejects).
A live allocation with size 0 or a null heap is rejected by the first
guard.  Otherwise the allocation is removed from the tracked set and a
block with its fields is inserted into the free list with both merge
attempts. -/
def dxmaFreeOp (st : AllocatorState) (idx : Nat) : AllocatorState :=
  if h : idx < st.live.length then
    if (st.live[idx]).size = 0 ∨ (st.live[idx]).heap = none then st
    else
      { st with
        freeList := insertFree
          ⟨(st.live[idx]).size, (st.live[idx]).offset, (st.live[idx]).heap_type,
           (st.live[idx]).heap_index, (st.live[idx]).heap⟩ st.freeList,
        live := st.live.eraseIdx idx }
  else st

/-- dxmaFree in the release build, acting on an Allocation value: the
size-0 / null-heap guard is still present (the early return is outside
the assert), the tracked-set check is compiled out.  Only the free list
is affected. -/
def dxmaFreeV (st : AllocatorState) (a : Allocation) : AllocatorState :=
  if a.size = 0 ∨ a.heap = none then st
  else
    { st with
      freeList := insertFree ⟨a.size, a.offset, a.heap_type, a.heap_index, a.heap⟩ st.freeList }

/-- One caller-visible operation against the allocator. -/
inductive Op where
  | alloc (size heap_type alignment : Nat)
  | free (idx : Nat)
deriving DecidableEq

/-- One step of the dxma variant. -/
def dxmaStep (bs : Nat) (st : AllocatorState) : Op → AllocatorState
  | .alloc s t al => (dxmaAllocateFn bs st s t al).1
  | .free i => dxmaFreeOp st i

/-- Run a sequence of operations against a fresh dxma allocator. -/
def runDxma (bs : Nat) (tr : List Op) : AllocatorState :=
  tr.foldl (dxmaStep bs) initState

/-!  The object-oriented variant dx12_ma::Allocator (dx12_ma.h).  Its
Allocate and Free carry the same free-list algorithm; the definitions
below are taken from that file independently so that the refinement
claim can compare the two. -/

/-- The free-list scan of dx12_ma::Allocator::Allocate
(dx12_ma.h lines 171-216). -/
def dx12AllocScan (s t : Nat) : List FreeBlock → Option (List FreeBlock × Allocation)
  | [] => none
  | b :: rest =>
    if s ≤ (if b.heap_type ≠ t then 0 else b.size) then
      if (if b.heap_type ≠ t then 0 else b.size) = s then
        some (rest, ⟨s, b.offset, t, b.heap_index, b.heap⟩)
      else
        some ({ b with size := b.size - s, offset := (b.offset + s) % M } :: rest,
              ⟨s, b.offset, t, b.heap_index, b.heap⟩)
    else
      match dx12AllocScan s t rest with
      | some (l, a) => some (b :: l, a)
      | none => none

/-- The insert-with-merge of dx12_ma::Allocator::Free
(dx12_ma.h lines 260-303); line for line the same list manipulation as
dxmaFree. -/
def dx12InsertFree (nb : FreeBlock) (l : List FreeBlock) : List FreeBlock :=
  match (l.takeWhile (contB nb)).getLast? with
  | some p =>
    if (p.offset + p.size) % M = nb.offset ∧ p.heap_index = nb.heap_index then
      (l.takeWhile (contB nb)).dropLast ++
        fwdMerge { p with size := (p.size + nb.size) % M } (l.dropWhile (contB nb))
    else
      l.takeWhile (contB nb) ++ fwdMerge nb (l.dropWhile (contB nb))
  | none => fwdMerge nb (l.dropWhile (contB nb))

/-- dx12_ma::Allocator::Allocate (dx12_ma.h lines 163-251).  size == 0
returns the value-initialised Allocation {0}.  The growth path stores
the new heap at heaps_[heap_count_], pushes the remainder block at the
head, increments heap_count_ and returns heap index heap_count_ - 1. -/
def dx12AllocateFn (bs : Nat) (st : AllocatorState)
    (size heap_type alignment : Nat) : AllocatorState × Allocation :=
  if size = 0 then (st, zeroAllocation)
  else
    let s := roundUp size alignment
    match dx12AllocScan s heap_type st.freeList with
    | some (l, a) =>
      ({ st with freeList := l, live := st.live ++ [a] }, a)
    | none =>
      let hbs := if (M + bs - s) % M = 0 then (s * 4) % M else bs
      let pr := arrayStore st.heapsArr st.heapCount (some st.heapCount)
      let nb : FreeBlock :=
        ⟨(M + hbs - s) % M, s, heap_type, st.heapCount, some st.heapCount⟩
      let hc := st.heapCount + 1
      let a : Allocation := ⟨s, 0, heap_type, hc - 1, some st.heapCount⟩
      ({ freeList := nb :: st.freeList,
         heapCount := hc,
         heapCaps := st.heapCaps ++ [hbs],
         heapsArr := pr.1,
         oobWrite := st.oobWrite || pr.2,
         live := st.live ++ [a] }, a)

/-- dx12_ma::Allocator::Free acting on an Allocation value
(dx12_ma.h lines 255-304): no validity check of any kind; the block
built from the allocation fields is inserted with both merge attempts
unconditionally.  Only the free list is affected (the content-keyed
tracked-set erase of diagnostic builds never changes behaviour). -/
def dx12FreeV (st : AllocatorState) (a : Allocation) : AllocatorState :=
  { st with
    freeList := dx12InsertFree ⟨a.size, a.offset, a.heap_type, a.heap_index, a.heap⟩ st.freeList }

/-- dx12_ma Free driven by the test harness: idx selects which
outstanding allocation value is passed.  Unlike dxmaFreeOp there is no
guard: the selected value is always inserted. -/
def dx12FreeOp (st : AllocatorState) (idx : Nat) : AllocatorState :=
  if h : idx < st.live.length then
    { st with
      freeList := dx12InsertFree
        ⟨(st.live[idx]).size, (st.live[idx]).offset, (st.live[idx]).heap_type,
         (st.live[idx]).heap_index, (st.live[idx]).heap⟩ st.freeList,
      live := st.live.eraseIdx idx }
  else st

/-- One step of the dx12_ma variant. -/
def dx12Step (bs : Nat) (st : AllocatorState) : Op → AllocatorState
  | .alloc s t al => (dx12AllocateFn bs st s t al).1
  | .free i => dx12FreeOp st i

/-- Run a sequence of operations against a fresh dx12_ma allocator. -/
def runDx12 (bs : Nat) (tr : List Op) : AllocatorState :=
  tr.foldl (dx12Step bs) initState

/-!  The mapping wrapper dxmaMapMemory (dxma.h lines 289-300).  The
external call ID3D12Resource::Map is an oracle: ext is the HRESULT it
would return if invoked; SUCCEEDED(hr) is 0 <= hr. -/

/-- dxmaMapMemory, modelled on the mapped flag and resource presence of
the allocation.  Returns the HRESULT handed to the caller, the new
value of the memory_mapped_ flag, and whether the external Map call was
performed at all. -/
def dxmaMapMemory (mapped hasResource : Bool) (ext : Int) : Int × Bool × Bool :=
  if mapped = false ∧ hasResource = true then
    (ext, if 0 ≤ ext then true else mapped, true)
  else
    ((0 : Int), mapped, false)

/-!  Validity of operation sequences, and the observation functions the
claims are stated with. -/

/-- Validity of a single operation for the invariant claims: an
allocation request is benign when its rounded size is at least 1 (no
64-bit wrap to 0 in the rounding) and at most the configured block size
(no unsigned underflow in the growth computation).  Free operations are
unrestricted: invalid ones are rejected by dxmaFree itself. -/
def opValid (bs : Nat) : Op → Prop
  | .alloc size _ alignment =>
    size ≠ 0 ∧ 1 ≤ roundUp size alignment ∧ roundUp size alignment ≤ bs
  | .free _ => True

instance (bs : Nat) (op : Op) : Decidable (opValid bs op) :=
  match op with
  | .alloc size _ alignment =>
    inferInstanceAs (Decidable (size ≠ 0 ∧ 1 ≤ roundUp size alignment ∧ roundUp size alignment ≤ bs))
  | .free _ => inferInstanceAs (Decidable True)

/-- All operations of a trace are valid. -/
def traceValid (bs : Nat) (tr : List Op) : Prop :=
  ∀ op ∈ tr, opValid bs op

instance (bs : Nat) (tr : List Op) : Decidable (traceValid bs tr) :=
  inferInstanceAs (Decidable (∀ op ∈ tr, opValid bs op))

/-- Capacity of heap i as recorded at its creation. -/
def capOf (st : AllocatorState) (i : Nat) : Nat := st.heapCaps.getD i 0

/-- Sum of the sizes of the free-list intervals belonging to heap i. -/
def sumFreeAt (l : List FreeBlock) (i : Nat) : Nat :=
  ((l.filter (fun b => b.heap_index == i)).map (fun b => b.size)).sum

/-- Sum of the sizes of the live allocations belonging to heap i. -/
def sumLiveAt (l : List Allocation) (i : Nat) : Nat :=
  ((l.filter (fun a => a.heap_index == i)).map (fun a => a.size)).sum

/-- Order relation of C2: two blocks of the same heap listed in this
order must be disjoint with the earlier one entirely below the later
one. -/
def blkR (x y : FreeBlock) : Prop :=
  x.heap_index = y.heap_index → x.offset + x.size ≤ y.offset

instance : DecidableRel blkR := fun x y =>
  inferInstanceAs (Decidable (x.heap_index = y.heap_index → x.offset + x.size ≤ y.offset))

/-- Lexicographic order on (heap_index, offset) keys, the order the
spec asserts for the whole list. -/
def lexLE (p q : Nat × Nat) : Prop :=
  p.1 < q.1 ∨ (p.1 = q.1 ∧ p.2 ≤ q.2)

instance : DecidableRel lexLE := fun p q =>
  inferInstanceAs (Decidable (p.1 < q.1 ∨ (p.1 = q.1 ∧ p.2 ≤ q.2)))

/-- The whole free list is sorted by (heap_index, offset) ascending:
every adjacent pair is in lexicographic order. -/
def sortedKey : List FreeBlock → Prop
  | x :: y :: rest =>
    lexLE (x.heap_index, x.offset) (y.heap_index, y.offset) ∧ sortedKey (y :: rest)
  | _ => True

instance sortedKeyDec : (l : List FreeBlock) → Decidable (sortedKey l)
  | [] => isTrue trivial
  | [_] => isTrue trivial
  | _ :: y :: rest =>
    @instDecidableAnd _ _ inferInstance (sortedKeyDec (y :: rest))

/-- No two list-adjacent entries of the same heap are contiguous. -/
def noAdjacentContig : List FreeBlock → Prop
  | x :: y :: rest =>
    (x.heap_index = y.heap_index → x.offset + x.size ≠ y.offset) ∧
      noAdjacentContig (y :: rest)
  | _ => True

instance noAdjacentContigDec : (l : List FreeBlock) → Decidable (noAdjacentContig l)
  | [] => isTrue trivial
  | [_] => isTrue trivial
  | _ :: y :: rest =>
    @instDecidableAnd _ _ inferInstance (noAdjacentContigDec (y :: rest))

/-- The allocator state used to exhibit a heap-array write at full
capacity: 200 heaps already created, empty free list. -/
def fullState : AllocatorState :=
  ⟨[], MAX_HEAP_COUNT, List.replicate MAX_HEAP_COUNT DXMA_HEAP_BLOCK_SIZE,
   List.replicate MAX_HEAP_COUNT (some 0), false, []⟩

/-- The intervals of a live allocation and of a free block of the same
heap do not overlap (touching is allowed). -/
def disjAB (a : Allocation) (b : FreeBlock) : Prop :=
  a.heap_index = b.heap_index →
    (a.offset + a.size ≤ b.offset ∨ b.offset + b.size ≤ a.offset)

/-- The intervals of two live allocations of the same heap do not
overlap. -/
def disjAA (x y : Allocation) : Prop :=
  x.heap_index = y.heap_index →
    (x.offset + x.size ≤ y.offset ∨ y.offset + y.size ≤ x.offset)

/-- Well-formedness of one free block: it belongs to a created heap,
is nonempty, fits inside the capacity of its heap, and its handle is
the handle of its heap. -/
def blockWF (st : AllocatorState) (b : FreeBlock) : Prop :=
  b.heap_index < st.heapCount ∧ 1 ≤ b.size ∧
  b.offset + b.size ≤ capOf st b.heap_index ∧ b.heap = some b.heap_index

/-- Well-formedness of one live allocation. -/
def allocWF (st : AllocatorState) (a : Allocation) : Prop :=
  a.heap_index < st.heapCount ∧ 1 ≤ a.size ∧
  a.offset + a.size ≤ capOf st a.heap_index ∧ a.heap = some a.heap_index

/-- The inductive invariant of the dxma allocator under benign request
sizes: capacities are recorded per heap and bounded, every free block
and live allocation is well formed, the free-list entries of every heap
appear in ascending offset order with pairwise disjoint intervals
(blkR), free intervals never overlap live allocations, live allocations
never overlap each other, and every heap conserves its capacity. -/
structure Inv (bs : Nat) (st : AllocatorState) : Prop where
  caps_len : st.heapCaps.length = st.heapCount
  caps_bound : ∀ c ∈ st.heapCaps, c ≤ 4 * bs
  blocks_wf : ∀ b ∈ st.freeList, blockWF st b
  live_wf : ∀ a ∈ st.live, allocWF st a
  ordered : st.freeList.Pairwise blkR
  free_live_disj : ∀ a ∈ st.live, ∀ b ∈ st.freeList, disjAB a b
  live_disj : st.live.Pairwise disjAA
  conserv : ∀ i < st.heapCount,
    sumFreeAt st.freeList i + sumLiveAt st.live i = capOf st i

end Dxma

namespace Dxma

/-- C1: evaluation of the growth path at a request one byte larger than
the configured block size.  The spec says the new heap must get
capacity 4 * s; the code compares the unsigned value
heap_block_size - size against 0, which never detects size greater
than heap_block_size, so the heap is created with the default capacity
41942400, smaller than the pending request, and the seeded free block
has the underflowed size 2^64 - 1. -/
theorem c1_growth_underflow_eval :
    (runDxma DXMA_HEAP_BLOCK_SIZE
      [.alloc (DXMA_HEAP_BLOCK_SIZE + 1) D3D12_HEAP_TYPE_UPLOAD 0]).heapCaps
      = [DXMA_HEAP_BLOCK_SIZE] ∧
    DXMA_HEAP_BLOCK_SIZE ≠ 4 * (DXMA_HEAP_BLOCK_SIZE + 1) ∧
    (runDxma DXMA_HEAP_BLOCK_SIZE
      [.alloc (DXMA_HEAP_BLOCK_SIZE + 1) D3D12_HEAP_TYPE_UPLOAD 0]).freeList.map
        (fun b => b.size) = [M - 1] ∧
    DXMA_HEAP_BLOCK_SIZE < DXMA_HEAP_BLOCK_SIZE + 1 ∧
    (runDxma DXMA_HEAP_BLOCK_SIZE
      [.alloc (DXMA_HEAP_BLOCK_SIZE + 1) D3D12_HEAP_TYPE_UPLOAD 0]).freeList.length = 1 := by
  decide

/-- C2 counterexample: a nine-operation trace of small, well-aligned
requests after which the free list is exactly two blocks of heap 0 that
are list-adjacent and contiguous (offset 0 size 100, then offset 100),
violating the no-adjacent-contiguity half of the claim; and the
two-allocation trace that creates two heaps leaves the list ordered
heap 1 before heap 0, violating the (heap_index, offset) sortedness
half. -/
theorem c2_cx :
    (runDxma DXMA_HEAP_BLOCK_SIZE
      [.alloc 100 2 0, .alloc 41942300 2 0, .alloc 100 1 0, .alloc 200 1 0,
       .alloc 41942100 1 0, .free 0, .free 2, .free 0, .alloc 200 1 0]).freeList =
      [⟨100, 0, 2, 0, some 0⟩, ⟨41942300, 100, 2, 0, some 0⟩] ∧
    ¬ noAdjacentContig
        [⟨100, 0, 2, 0, some 0⟩, (⟨41942300, 100, 2, 0, some 0⟩ : FreeBlock)] ∧
    ¬ sortedKey (runDxma DXMA_HEAP_BLOCK_SIZE
        [.alloc 100 2 0, .alloc 100 1 0]).freeList := by
  decide

/-- C3 counterexample: a single allocation one byte larger than the
configured block size leaves heap 0 with free size 2^64 - 1 plus live
size 41942401, far exceeding the capacity 41942400; and a request whose
rounded size wraps to 0 (size 2^64 - 1 with alignment 2) removes the
type-mismatched head block outright, leaving heap 0 with free size 0
plus live size 100 against capacity 41942400. -/
theorem c3_cx :
    0 < (runDxma DXMA_HEAP_BLOCK_SIZE [.alloc 41942401 2 0]).heapCount ∧
    sumFreeAt (runDxma DXMA_HEAP_BLOCK_SIZE [.alloc 41942401 2 0]).freeList 0 +
      sumLiveAt (runDxma DXMA_HEAP_BLOCK_SIZE [.alloc 41942401 2 0]).live 0 ≠
      capOf (runDxma DXMA_HEAP_BLOCK_SIZE [.alloc 41942401 2 0]) 0 ∧
    0 < (runDxma DXMA_HEAP_BLOCK_SIZE [.alloc 100 2 0, .alloc (M - 1) 1 2]).heapCount ∧
    sumFreeAt (runDxma DXMA_HEAP_BLOCK_SIZE
        [.alloc 100 2 0, .alloc (M - 1) 1 2]).freeList 0 +
      sumLiveAt (runDxma DXMA_HEAP_BLOCK_SIZE
        [.alloc 100 2 0, .alloc (M - 1) 1 2]).live 0 ≠
      capOf (runDxma DXMA_HEAP_BLOCK_SIZE [.alloc 100 2 0, .alloc (M - 1) 1 2]) 0 := by
  decide

/-- C4 counterexample: freeing a heap-0 interval into the sorted
singleton list holding only a heap-1 block places the new node at the
end of the list, not at its (heap_index, offset)-sorted position, which
would be the front. -/
theorem c4_cx :
    sortedKey [(⟨10, 0, 2, 1, some 1⟩ : FreeBlock)] ∧
    insertFree ⟨7, 5, 2, 0, some 0⟩ [⟨10, 0, 2, 1, some 1⟩] =
      [⟨10, 0, 2, 1, some 1⟩, ⟨7, 5, 2, 0, some 0⟩] ∧
    ¬ sortedKey (insertFree ⟨7, 5, 2, 0, some 0⟩ [⟨10, 0, 2, 1, some 1⟩]) := by
  decide

/-- C5 counterexample: for the requested size 2^64 - 1 with alignment 2
(a power of two), the UINT64 rounding wraps to 0, which is smaller than
the requested size and therefore not the power-of-two-alignment ceiling
of it. -/
theorem c5_cx :
    roundUp (M - 1) 2 = 0 ∧ M - 1 ≠ 0 ∧ (2 : Nat) = 2 ^ 1 ∧
    ¬ (M - 1 ≤ roundUp (M - 1) 2) := by
  decide

/-- C6 counterexample: freeing a zero-size allocation is rejected with
the state unchanged by dxmaFree, but dx12_ma::Allocator::Free performs
no validity check and pushes a zero-size block onto the empty free
list, so the claim fails for the object-oriented variant. -/
theorem c6_cx :
    dxmaFreeV initState ⟨0, 0, 1, 0, none⟩ = initState ∧
    (dx12FreeV initState ⟨0, 0, 1, 0, none⟩).freeList = [⟨0, 0, 1, 0, none⟩] ∧
    dx12FreeV initState ⟨0, 0, 1, 0, none⟩ ≠ initState := by
  decide

/-- C9 counterexample: the two variants are configured with different
default block sizes (640 * 65535 versus 64 * 65535), so the very first
allocation of 4194240 bytes leaves different free-list intervals
(37748160 versus 12582720 bytes); and on an invalid Free of a zero-size
allocation the handle-based variant rejects while the object-oriented
variant mutates the list. -/
theorem c9_cx :
    (runDxma DXMA_HEAP_BLOCK_SIZE [.alloc 4194240 2 0]).freeList.map
      (fun b => b.size) = [37748160] ∧
    (runDx12 DX12_MA_HEAP_BLOCK_SIZE [.alloc 4194240 2 0]).freeList.map
      (fun b => b.size) = [12582720] ∧
    (37748160 : Nat) ≠ 12582720 ∧
    dxmaFreeV initState ⟨0, 0, 2, 0, none⟩ = initState ∧
    dx12FreeV initState ⟨0, 0, 2, 0, none⟩ ≠ initState := by
  decide

/-- C7: Allocate with size 0 is a complete no-op in both variants: the
returned state is the input state unchanged (free list, heap count,
heap array, tracked set), the handle-based variant leaves the
out-parameter untouched and the object-oriented variant returns the
value-initialised zero Allocation. -/
theorem c7_zero_alloc_noop (bs : Nat) (st : AllocatorState) (t al : Nat) :
    dxmaAllocateFn bs st 0 t al = (st, none) ∧
    dx12AllocateFn bs st 0 t al = (st, zeroAllocation) :=
  ⟨rfl, rfl⟩

/-- C8: dxmaMapMemory returns success immediately without invoking the
external capability or changing the mapped flag when the allocation is
already mapped or has no attached resource; otherwise it performs the
external call, sets the mapped flag only when the call succeeds
(HRESULT at least 0), leaves the flag false when the call fails, and
returns the external result either way. -/
theorem c8_map_idempotent_atomic (mapped hasResource : Bool) (ext : Int) :
    (mapped = true ∨ hasResource = false →
      dxmaMapMemory mapped hasResource ext = ((0 : Int), mapped, false)) ∧
    (mapped = false → hasResource = true →
      ((0 ≤ ext → dxmaMapMemory mapped hasResource ext = (ext, true, true)) ∧
       (ext < 0 → dxmaMapMemory mapped hasResource ext = (ext, false, true)))) := by
  constructor
  · intro h
    rcases h with h | h <;> simp [dxmaMapMemory, h]
  · intro hm hr
    constructor
    · intro hext
      simp [dxmaMapMemory, hm, hr, hext]
    · intro hext
      have : ¬ (0 : Int) ≤ ext := by omega
      simp [dxmaMapMemory, hm, hr, this]

/-- C8 witness: a failing external call (HRESULT -5) on an unmapped
allocation with a resource leaves the flag false and propagates -5. -/
theorem c8_map_witness :
    dxmaMapMemory false true (-5) = ((-5 : Int), false, true) :=
  ((c8_map_idempotent_atomic false true (-5)).2 rfl rfl).2 (by decide)

/-- C10: the growth path of dxmaAllocate stores the new heap handle at
index heap_count_ of the fixed 200-slot heaps_ array with no bound
check and unconditionally increments the heap count; the store stays in
bounds exactly when the heap count before the call is below
DXMA_MAX_HEAP_COUNT, and any growth triggered at the maximum writes out
of bounds. -/
theorem c10_heap_array_bound (bs : Nat) (st : AllocatorState) (size t al : Nat)
    (hsz : size ≠ 0)
    (hmiss : allocScan (roundUp size al) t st.freeList = none)
    (hlen : st.heapsArr.length = MAX_HEAP_COUNT) :
    (dxmaAllocateFn bs st size t al).1.heapCount = st.heapCount + 1 ∧
    (st.heapCount < MAX_HEAP_COUNT →
      (dxmaAllocateFn bs st size t al).1.oobWrite = st.oobWrite) ∧
    (MAX_HEAP_COUNT ≤ st.heapCount →
      (dxmaAllocateFn bs st size t al).1.oobWrite = true) := by
  unfold dxmaAllocateFn arrayStore
  simp only [if_neg hsz, hmiss]
  refine ⟨trivial, ?_, ?_⟩
  · intro h
    have : ¬ st.heapsArr.length ≤ st.heapCount := by omega
    simp [this]
  · intro h
    have : st.heapsArr.length ≤ st.heapCount := by omega
    simp [this]

/-- C10 witness: with 200 heaps already created and an empty free list,
an allocation of 256 bytes triggers growth and the heap store lands out
of bounds. -/
theorem c10_heap_array_bound_witness :
    (256 : Nat) ≠ 0 ∧
    allocScan (roundUp 256 0) 2 fullState.freeList = none ∧
    fullState.heapsArr.length = MAX_HEAP_COUNT ∧
    MAX_HEAP_COUNT ≤ fullState.heapCount ∧
    (dxmaAllocateFn DXMA_HEAP_BLOCK_SIZE fullState 256 2 0).1.oobWrite = true :=
  ⟨by decide, by decide, by decide, by decide,
   (c10_heap_array_bound DXMA_HEAP_BLOCK_SIZE fullState 256 2 0
     (by decide) (by decide) (by decide)).2.2 (by decide)⟩

/-! Helper lemmas about the two merge attempts of Free. -/

theorem fwdMerge_of_no_merge (w : FreeBlock) (after : List FreeBlock)
    (h : ∀ c rest, after = c :: rest →
      ¬((w.offset + w.size) % M = c.offset ∧ c.heap_index = w.heap_index)) :
    fwdMerge w after = w :: after := by
  cases after with
  | nil => rfl
  | cons c rest =>
    simp only [fwdMerge]
    rw [if_neg (h c rest rfl)]

theorem fwdMerge_of_merge (w c : FreeBlock) (rest : List FreeBlock)
    (h : (w.offset + w.size) % M = c.offset ∧ c.heap_index = w.heap_index) :
    fwdMerge w (c :: rest) = { w with size := (w.size + c.size) % M } :: rest := by
  simp only [fwdMerge]
  rw [if_pos h]

/-- Dispatch lemma: insertFree according to the shape of the scanned
prefix. -/
theorem insertFree_eq_cases (nb : FreeBlock) (l : List FreeBlock) :
    (∀ pre p, l.takeWhile (contB nb) = pre ++ [p] →
       insertFree nb l =
         if (p.offset + p.size) % M = nb.offset ∧ p.heap_index = nb.heap_index then
           pre ++ fwdMerge { p with size := (p.size + nb.size) % M } (l.dropWhile (contB nb))
         else (pre ++ [p]) ++ fwdMerge nb (l.dropWhile (contB nb))) ∧
    (l.takeWhile (contB nb) = [] →
       insertFree nb l = fwdMerge nb (l.dropWhile (contB nb))) := by
  constructor
  · intro pre p hsplit
    unfold insertFree
    rw [hsplit, List.getLast?_concat, List.dropLast_concat]
  · intro hnil
    unfold insertFree
    rw [hnil]
    rfl

/-- C4: characterisation of the insert-with-merge performed by dxmaFree
on a free list whose offsets and sizes do not overflow UINT64.  The
freed block is spliced immediately before the first node with the same
heap index and an offset at least its own (the node the scan stops
on), with the predecessor of that position as prev; if prev shares the
heap index and ends exactly at the new offset, prev is grown and the
new node discarded; independently, if the stop node shares the heap
index and begins exactly at the working end, it is absorbed and
unlinked; when both apply, the three intervals collapse into a single
node.  This corrects the claim in one respect: the splice position is
determined by the scan, which passes every node of a different heap, so
it is not in general the (heap_index, offset)-sorted position. -/
theorem c4_free_insert_merge (nb : FreeBlock) (l : List FreeBlock)
    (hl : ∀ x ∈ l, x.offset + x.size < M) (hnb : nb.offset + nb.size < M) :
    ((∀ pre p, l.takeWhile (contB nb) = pre ++ [p] →
        ¬(p.offset + p.size = nb.offset ∧ p.heap_index = nb.heap_index)) →
     (∀ c rest, l.dropWhile (contB nb) = c :: rest →
        ¬(nb.offset + nb.size = c.offset ∧ c.heap_index = nb.heap_index)) →
     insertFree nb l = l.takeWhile (contB nb) ++ nb :: l.dropWhile (contB nb)) ∧
    (∀ pre p, l.takeWhile (contB nb) = pre ++ [p] →
      p.offset + p.size = nb.offset → p.heap_index = nb.heap_index →
      (∀ c rest, l.dropWhile (contB nb) = c :: rest →
        ¬(nb.offset + nb.size = c.offset ∧ c.heap_index = nb.heap_index)) →
      insertFree nb l =
        pre ++ { p with size := p.size + nb.size } :: l.dropWhile (contB nb)) ∧
    ((∀ pre p, l.takeWhile (contB nb) = pre ++ [p] →
        ¬(p.offset + p.size = nb.offset ∧ p.heap_index = nb.heap_index)) →
     ∀ c rest, l.dropWhile (contB nb) = c :: rest →
      nb.offset + nb.size = c.offset → c.heap_index = nb.heap_index →
      insertFree nb l =
        l.takeWhile (contB nb) ++ { nb with size := nb.size + c.size } :: rest) ∧
    (∀ pre p c rest, l.takeWhile (contB nb) = pre ++ [p] →
      l.dropWhile (contB nb) = c :: rest →
      p.offset + p.size = nb.offset → p.heap_index = nb.heap_index →
      nb.offset + nb.size = c.offset → c.heap_index = nb.heap_index →
      insertFree nb l =
        pre ++ ⟨p.size + nb.size + c.size, p.offset, p.heap_type, p.heap_index, p.heap⟩ :: rest) := by
  have hmem_take : ∀ x ∈ l.takeWhile (contB nb), x.offset + x.size < M := by
    intro x hx
    exact hl x ((List.takeWhile_sublist (contB nb)).subset hx)
  have hmem_drop : ∀ x ∈ l.dropWhile (contB nb), x.offset + x.size < M := by
    intro x hx
    exact hl x ((List.dropWhile_sublist (contB nb)).subset hx)
  have hdisp := insertFree_eq_cases nb l
  refine ⟨?_, ?_, ?_, ?_⟩
  · -- no merge on either side
    intro hpre hpost
    cases hlast : (l.takeWhile (contB nb)).getLast? with
    | none =>
      have hbe : l.takeWhile (contB nb) = [] := List.getLast?_eq_none_iff.mp hlast
      rw [hdisp.2 hbe, hbe, List.nil_append]
      refine fwdMerge_of_no_merge nb _ ?_
      intro c rest hc hcon
      rw [Nat.mod_eq_of_lt hnb] at hcon
      exact hpost c rest hc ⟨hcon.1, hcon.2⟩
    | some p =>
      obtain ⟨pre, hsplit⟩ := List.getLast?_eq_some_iff.mp hlast
      have hpM : p.offset + p.size < M := by
        refine hmem_take p ?_
        rw [hsplit]
        exact List.mem_append_right _ (List.mem_singleton.mpr rfl)
      rw [hdisp.1 pre p hsplit, if_neg ?_]
      · rw [fwdMerge_of_no_merge nb _ ?_, hsplit]
        intro c rest hc hcon
        rw [Nat.mod_eq_of_lt hnb] at hcon
        exact hpost c rest hc ⟨hcon.1, hcon.2⟩
      · intro hcon
        rw [Nat.mod_eq_of_lt hpM] at hcon
        exact hpre pre p hsplit ⟨hcon.1, hcon.2⟩
  · -- backward merge only
    intro pre p hsplit hcontig hsame hpost
    have hpM : p.offset + p.size < M := by
      refine hmem_take p ?_
      rw [hsplit]
      exact List.mem_append_right _ (List.mem_singleton.mpr rfl)
    rw [hdisp.1 pre p hsplit,
        if_pos ⟨by rw [Nat.mod_eq_of_lt hpM]; exact hcontig, hsame⟩]
    have hsum : p.size + nb.size < M := by omega
    rw [fwdMerge_of_no_merge _ _ ?_]
    · rw [Nat.mod_eq_of_lt hsum]
    · intro c rest hc hcon
      simp only [Nat.mod_eq_of_lt hsum] at hcon
      rw [Nat.mod_eq_of_lt (by omega : p.offset + (p.size + nb.size) < M)] at hcon
      have h1 : p.offset + (p.size + nb.size) = nb.offset + nb.size := by omega
      rw [h1] at hcon
      refine hpost c rest hc ⟨hcon.1, ?_⟩
      rw [hcon.2, hsame]
  · -- forward merge only
    intro hpre c rest hdrop hcontig hsame
    have hcM : c.offset + c.size < M := by
      refine hmem_drop c ?_
      rw [hdrop]
      exact List.mem_cons_self c rest
    cases hlast : (l.takeWhile (contB nb)).getLast? with
    | none =>
      have hbe : l.takeWhile (contB nb) = [] := List.getLast?_eq_none_iff.mp hlast
      rw [hdisp.2 hbe, hbe, List.nil_append, hdrop,
          fwdMerge_of_merge nb c rest ⟨by rw [Nat.mod_eq_of_lt hnb]; exact hcontig, hsame⟩,
          Nat.mod_eq_of_lt (by omega : nb.size + c.size < M)]
    | some p =>
      obtain ⟨pre, hsplit⟩ := List.getLast?_eq_some_iff.mp hlast
      have hpM : p.offset + p.size < M := by
        refine hmem_take p ?_
        rw [hsplit]
        exact List.mem_append_right _ (List.mem_singleton.mpr rfl)
      rw [hdisp.1 pre p hsplit, if_neg ?_]
      · rw [hdrop,
            fwdMerge_of_merge nb c rest ⟨by rw [Nat.mod_eq_of_lt hnb]; exact hcontig, hsame⟩,
            Nat.mod_eq_of_lt (by omega : nb.size + c.size < M), hsplit]
      · intro hcon
        rw [Nat.mod_eq_of_lt hpM] at hcon
        exact hpre pre p hsplit ⟨hcon.1, hcon.2⟩
  · -- both merges: triple collapse
    intro pre p c rest hsplit hdrop hcontig1 hsame1 hcontig2 hsame2
    have hpM : p.offset + p.size < M := by
      refine hmem_take p ?_
      rw [hsplit]
      exact List.mem_append_right _ (List.mem_singleton.mpr rfl)
    have hcM : c.offset + c.size < M := by
      refine hmem_drop c ?_
      rw [hdrop]
      exact List.mem_cons_self c rest
    rw [hdisp.1 pre p hsplit,
        if_pos ⟨by rw [Nat.mod_eq_of_lt hpM]; exact hcontig1, hsame1⟩, hdrop]
    have hsum1 : p.size + nb.size < M := by omega
    rw [fwdMerge_of_merge _ c rest ?_]
    · simp only [Nat.mod_eq_of_lt hsum1]
      rw [Nat.mod_eq_of_lt (by omega : p.size + nb.size + c.size < M)]
    · constructor
      · simp only [Nat.mod_eq_of_lt hsum1]
        rw [Nat.mod_eq_of_lt (by omega : p.offset + (p.size + nb.size) < M)]
        omega
      · rw [hsame2, hsame1]

/-- C4 witness: freeing the interval of size 10 at offset 10 of heap 0
between the free blocks covering offsets 0-10 and 20-30 of heap 0
collapses the three intervals into one block of size 30 at offset 0. -/
theorem c4_free_insert_merge_witness :
    insertFree ⟨10, 10, 2, 0, some 0⟩ [⟨10, 0, 2, 0, some 0⟩, ⟨10, 20, 2, 0, some 0⟩] =
      [⟨30, 0, 2, 0, some 0⟩] := by
  have h := c4_free_insert_merge ⟨10, 10, 2, 0, some 0⟩
      [⟨10, 0, 2, 0, some 0⟩, ⟨10, 20, 2, 0, some 0⟩]
      (by decide) (by decide)
  exact h.2.2.2 [] ⟨10, 0, 2, 0, some 0⟩ ⟨10, 20, 2, 0, some 0⟩ []
    (by decide) (by decide) (by decide) (by decide) (by decide) (by decide)

/-! Helper lemmas about the rounding and the allocation scan. -/

/-- Masking a 64-bit value with the complement of the low k bits clears
the low k bits. -/
theorem land_high_mask (x k : Nat) (hx : x < M) (hk : k < 64) :
    x &&& ((M - 1) ^^^ (2 ^ k - 1)) = 2 ^ k * (x / 2 ^ k) := by
  have hR : 2 ^ k * (x / 2 ^ k) = (x >>> k) <<< k := by
    rw [Nat.shiftLeft_eq, Nat.shiftRight_eq_div_pow]
    ring
  refine Nat.eq_of_testBit_eq fun i => ?_
  have hM64 : M - 1 = 2 ^ 64 - 1 := rfl
  rw [hR, Nat.testBit_shiftLeft, Nat.testBit_shiftRight, Nat.testBit_land,
      Nat.testBit_xor, hM64, Nat.testBit_two_pow_sub_one, Nat.testBit_two_pow_sub_one]
  by_cases hik : i < k
  · have h64 : i < 64 := lt_trans hik hk
    simp [hik, h64, Nat.not_le.mpr hik]
  · have hki : k + (i - k) = i := by omega
    by_cases h64 : i < 64
    · simp [h64, hik, hki, Nat.le_of_not_lt hik]
    · have hxi : x.testBit i = false := by
        refine Nat.testBit_eq_false_of_lt (lt_of_lt_of_le hx ?_)
        have : M = 2 ^ 64 := rfl
        rw [this]
        exact Nat.pow_le_pow_right (by norm_num) (by omega)
      simp [hxi, hki, h64]

/-- The UINT64 rounding of dxmaAllocate, at a power-of-two alignment
and in the absence of 64-bit overflow, is the division-based rounding
up. -/
theorem roundUp_pow2 (size k : Nat) (hk : k < 64) (hnof : size + 2 ^ k ≤ M) :
    roundUp size (2 ^ k) = 2 ^ k * ((size + 2 ^ k - 1) / 2 ^ k) := by
  have hpos : 0 < 2 ^ k := pow_pos (by norm_num) k
  have hlt : (2 : Nat) ^ k < 2 ^ 64 := Nat.pow_lt_pow_right (by norm_num) hk
  have hMeq : M = 2 ^ 64 := rfl
  unfold roundUp
  rw [if_neg (by omega)]
  rw [Nat.mod_eq_of_lt (by omega : size + 2 ^ k - 1 < M),
      Nat.mod_eq_of_lt (by omega : 2 ^ k - 1 < M)]
  exact land_high_mask _ k (by omega) hk

/-- The division-based rounding up is the least multiple of a positive
alignment that is at least the size. -/
theorem ceil_div_spec (size al : Nat) (hal : 0 < al) :
    size ≤ al * ((size + al - 1) / al) ∧
    al * ((size + al - 1) / al) % al = 0 ∧
    al * ((size + al - 1) / al) < size + al := by
  have hdm := Nat.div_add_mod (size + al - 1) al
  have hmod : (size + al - 1) % al < al := Nat.mod_lt _ hal
  refine ⟨by omega, Nat.mul_mod_right _ _, by omega⟩

/-- First-fit characterisation of the allocation scan for a nonzero
rounded size: a hit decomposes the list into a skipped prefix (wrong
heap type or too small), the first fitting node, and the untouched
tail; the returned Allocation copies the node fields, and the node is
removed on an exact match or shrunk in place otherwise. -/
theorem allocScan_characterisation (s t : Nat) (hs : 1 ≤ s) :
    ∀ (l l2 : List FreeBlock) (a : Allocation),
      allocScan s t l = some (l2, a) →
      ∃ pre b post,
        l = pre ++ b :: post ∧
        (∀ x ∈ pre, x.heap_type ≠ t ∨ x.size < s) ∧
        b.heap_type = t ∧ s ≤ b.size ∧
        a = ⟨s, b.offset, t, b.heap_index, b.heap⟩ ∧
        ((b.size = s ∧ l2 = pre ++ post) ∨
         (s < b.size ∧
          l2 = pre ++ { b with size := b.size - s, offset := (b.offset + s) % M } :: post)) := by
  intro l
  induction l with
  | nil => intro l2 a h; simp [allocScan] at h
  | cons b rest ih =>
    intro l2 a h
    simp only [allocScan] at h
    split at h
    next h1 =>
      -- heap type mismatch: the treated size is 0 and the node is skipped
      rw [if_neg (by omega : ¬ s ≤ 0)] at h
      split at h
      next l' a' heq =>
        simp only [Option.some.injEq, Prod.mk.injEq] at h
        obtain ⟨hl2, ha⟩ := h
        obtain ⟨pre, bb, post, hsplit, hpre, hty, hsz, haa, hcase⟩ := ih l' a' heq
        refine ⟨b :: pre, bb, post, by rw [List.cons_append, ← hsplit], ?_, hty, hsz, ?_, ?_⟩
        · intro x hx
          rcases List.mem_cons.mp hx with hx | hx
          · subst hx; exact Or.inl h1
          · exact hpre x hx
        · rw [← ha]; exact haa
        · rcases hcase with ⟨hexact, hl'⟩ | ⟨hlt, hl'⟩
          · exact Or.inl ⟨hexact, by rw [← hl2, hl', List.cons_append]⟩
          · exact Or.inr ⟨hlt, by rw [← hl2, hl', List.cons_append]⟩
      next heq => simp at h
    next h1 =>
      have hty : b.heap_type = t := not_not.mp h1
      split at h
      next h2 =>
        -- the node fits
        split at h
        next h3 =>
          -- exact size match: node removed
          simp only [Option.some.injEq, Prod.mk.injEq] at h
          obtain ⟨hl2, ha⟩ := h
          refine ⟨[], b, rest, rfl, by simp, hty, by omega, by rw [← ha], Or.inl ⟨h3, ?_⟩⟩
          rw [← hl2]
          rfl
        next h3 =>
          -- larger match: node shrunk in place
          simp only [Option.some.injEq, Prod.mk.injEq] at h
          obtain ⟨hl2, ha⟩ := h
          refine ⟨[], b, rest, rfl, by simp, hty, by omega,
            by rw [← ha], Or.inr ⟨by omega, ?_⟩⟩
          rw [← hl2]
          rfl
      next h2 =>
        -- the node is too small and is skipped
        split at h
        next l' a' heq =>
          simp only [Option.some.injEq, Prod.mk.injEq] at h
          obtain ⟨hl2, ha⟩ := h
          obtain ⟨pre, bb, post, hsplit, hpre, htyb, hsz, haa, hcase⟩ := ih l' a' heq
          refine ⟨b :: pre, bb, post, by rw [List.cons_append, ← hsplit], ?_, htyb, hsz, ?_, ?_⟩
          · intro x hx
            rcases List.mem_cons.mp hx with hx | hx
            · subst hx
              exact Or.inr (by omega)
            · exact hpre x hx
          · rw [← ha]; exact haa
          · rcases hcase with ⟨hexact, hl'⟩ | ⟨hlt, hl'⟩
            · exact Or.inl ⟨hexact, by rw [← hl2, hl', List.cons_append]⟩
            · exact Or.inr ⟨hlt, by rw [← hl2, hl', List.cons_append]⟩
        next heq => simp at h

/-- C5: for a nonzero request with power-of-two (or zero) alignment and
no 64-bit overflow in the rounding, the rounded size is the
power-of-two-alignment ceiling of the requested size (the least
multiple of the alignment at least the size; the size itself when the
alignment is 0), and a scan hit is first-fit: the allocation is taken
from the first node whose heap type matches and whose size is at least
the rounded size, nodes of other heap types never being used; an exact
match unlinks the node and copies its fields into the returned
Allocation, a larger match shrinks the node in place and returns the
consumed prefix.  This corrects the claim by the added no-overflow
hypothesis: at size 2^64 - 1 the UINT64 rounding wraps to 0. -/
theorem c5_round_and_first_fit (size alignment t : Nat) (l : List FreeBlock)
    (hsize : size ≠ 0)
    (halign : alignment = 0 ∨ ∃ k, k < 64 ∧ alignment = 2 ^ k)
    (hnof : size + alignment ≤ M)
    (hl : ∀ x ∈ l, x.offset + x.size < M) :
    (alignment = 0 → roundUp size alignment = size) ∧
    size ≤ roundUp size alignment ∧
    (alignment ≠ 0 → roundUp size alignment % alignment = 0 ∧
        roundUp size alignment < size + alignment) ∧
    (∀ l2 a, allocScan (roundUp size alignment) t l = some (l2, a) →
      ∃ pre b post,
        l = pre ++ b :: post ∧
        (∀ x ∈ pre, x.heap_type ≠ t ∨ x.size < roundUp size alignment) ∧
        b.heap_type = t ∧ roundUp size alignment ≤ b.size ∧
        a = ⟨roundUp size alignment, b.offset, t, b.heap_index, b.heap⟩ ∧
        ((b.size = roundUp size alignment ∧ l2 = pre ++ post) ∨
         (roundUp size alignment < b.size ∧
          l2 = pre ++ { b with size := b.size - roundUp size alignment,
                               offset := b.offset + roundUp size alignment } :: post))) := by
  have hround : (alignment = 0 → roundUp size alignment = size) ∧
      size ≤ roundUp size alignment ∧
      (alignment ≠ 0 → roundUp size alignment % alignment = 0 ∧
        roundUp size alignment < size + alignment) := by
    rcases halign with h0 | ⟨k, hk, h2⟩
    · subst h0
      refine ⟨fun _ => by unfold roundUp; rw [if_pos rfl], by
        unfold roundUp; rw [if_pos rfl], fun hne => absurd rfl hne⟩
    · subst h2
      have hpos : 0 < 2 ^ k := pow_pos (by norm_num) k
      have heq := roundUp_pow2 size k hk hnof
      have hspec := ceil_div_spec size (2 ^ k) hpos
      exact ⟨fun h => absurd h (Nat.pos_iff_ne_zero.mp hpos), by rw [heq]; exact hspec.1,
        fun _ => by rw [heq]; exact ⟨hspec.2.1, hspec.2.2⟩⟩
  have hs1 : 1 ≤ roundUp size alignment :=
    le_trans (Nat.one_le_iff_ne_zero.mpr hsize) hround.2.1
  refine ⟨hround.1, hround.2.1, hround.2.2, ?_⟩
  intro l2 a h
  obtain ⟨pre, b, post, hsplit, hpre, hty, hsz, ha, hcase⟩ :=
    allocScan_characterisation (roundUp size alignment) t hs1 l l2 a h
  refine ⟨pre, b, post, hsplit, hpre, hty, hsz, ha, ?_⟩
  rcases hcase with hcase | ⟨hlt, hl2⟩
  · exact Or.inl hcase
  · refine Or.inr ⟨hlt, ?_⟩
    have hbM : b.offset + b.size < M := by
      refine hl b ?_
      rw [hsplit]
      exact List.mem_append_right _ (List.mem_cons_self b post)
    rw [hl2, Nat.mod_eq_of_lt (by omega : b.offset + roundUp size alignment < M)]

/-- C5 witness: size 5 with alignment 4 rounds to 8, a multiple of 4
below 9 and at least 5. -/
theorem c5_round_and_first_fit_witness :
    (5 : Nat) ≤ roundUp 5 4 ∧ roundUp 5 4 % 4 = 0 ∧ roundUp 5 4 < 5 + 4 := by
  have h := c5_round_and_first_fit 5 4 2 [] (by decide)
    (Or.inr ⟨2, by decide, by decide⟩) (by decide) (by decide)
  exact ⟨h.2.1, (h.2.2.1 (by decide)).1, (h.2.2.1 (by decide)).2⟩

/-- C6 (amended to the handle-based variant): dxmaFree rejects, leaving
the allocator state (free list, heap pool, tracked set) unchanged, a
Free whose allocation has size 0 or a null heap — in the release model
dxmaFreeV and in the diagnostic model dxmaFreeOp alike — and, in the
diagnostic build, a Free whose pointer is not in the tracked set
(RemoveAllocation returns 0).  The object-oriented variant performs no
such check (see the counterexample). -/
theorem c6_invalid_free_reject (st : AllocatorState) (a : Allocation) (idx : Nat) :
    ((a.size = 0 ∨ a.heap = none) → dxmaFreeV st a = st) ∧
    (∀ h : idx < st.live.length,
      ((st.live[idx]).size = 0 ∨ (st.live[idx]).heap = none) → dxmaFreeOp st idx = st) ∧
    (st.live.length ≤ idx → dxmaFreeOp st idx = st) := by
  refine ⟨?_, ?_, ?_⟩
  · intro h
    unfold dxmaFreeV
    rw [if_pos h]
  · intro h hz
    unfold dxmaFreeOp
    rw [dif_pos h, if_pos hz]
  · intro h
    unfold dxmaFreeOp
    rw [dif_neg (by omega)]

/-- C6 witness: a zero-size allocation is rejected by the release-model
dxmaFree on a fresh allocator. -/
theorem c6_invalid_free_reject_witness :
    dxmaFreeV initState ⟨0, 5, 2, 0, some 0⟩ = initState :=
  (c6_invalid_free_reject initState ⟨0, 5, 2, 0, some 0⟩ 0).1 (Or.inl rfl)

/-! Helper lemmas about the per-heap sums and the capacity record. -/

theorem sumFreeAt_append (l1 l2 : List FreeBlock) (i : Nat) :
    sumFreeAt (l1 ++ l2) i = sumFreeAt l1 i + sumFreeAt l2 i := by
  unfold sumFreeAt
  rw [List.filter_append, List.map_append, List.sum_append]

theorem sumFreeAt_cons (b : FreeBlock) (l : List FreeBlock) (i : Nat) :
    sumFreeAt (b :: l) i =
      (if b.heap_index = i then b.size else 0) + sumFreeAt l i := by
  unfold sumFreeAt
  rw [List.filter_cons]
  by_cases h : b.heap_index = i
  · rw [if_pos (by simpa using h), if_pos h]
    simp
  · rw [if_neg (by simpa using h), if_neg h]
    simp

theorem sumFreeAt_nil (i : Nat) : sumFreeAt [] i = 0 := rfl

theorem sumLiveAt_nil (i : Nat) : sumLiveAt [] i = 0 := rfl

theorem sumFreeAt_eq_zero (l : List FreeBlock) (i : Nat)
    (h : ∀ b ∈ l, b.heap_index ≠ i) : sumFreeAt l i = 0 := by
  induction l with
  | nil => rfl
  | cons b rest ih =>
    rw [sumFreeAt_cons, if_neg (h b (List.mem_cons_self b rest)),
        ih fun x hx => h x (List.mem_cons_of_mem b hx)]

theorem sumLiveAt_append (l1 l2 : List Allocation) (i : Nat) :
    sumLiveAt (l1 ++ l2) i = sumLiveAt l1 i + sumLiveAt l2 i := by
  unfold sumLiveAt
  rw [List.filter_append, List.map_append, List.sum_append]

theorem sumLiveAt_cons (a : Allocation) (l : List Allocation) (i : Nat) :
    sumLiveAt (a :: l) i =
      (if a.heap_index = i then a.size else 0) + sumLiveAt l i := by
  unfold sumLiveAt
  rw [List.filter_cons]
  by_cases h : a.heap_index = i
  · rw [if_pos (by simpa using h), if_pos h]
    simp
  · rw [if_neg (by simpa using h), if_neg h]
    simp

theorem sumLiveAt_eq_zero (l : List Allocation) (i : Nat)
    (h : ∀ a ∈ l, a.heap_index ≠ i) : sumLiveAt l i = 0 := by
  induction l with
  | nil => rfl
  | cons a rest ih =>
    rw [sumLiveAt_cons, if_neg (h a (List.mem_cons_self a rest)),
        ih fun x hx => h x (List.mem_cons_of_mem a hx)]

/-- Decomposition of the live list at a valid index, matching the
pointer erased by RemoveAllocation. -/
theorem live_decomp {α : Type} (l : List α) (idx : Nat) (h : idx < l.length) :
    l = l.take idx ++ l[idx] :: l.drop (idx + 1) ∧
    l.eraseIdx idx = l.take idx ++ l.drop (idx + 1) := by
  constructor
  · conv_lhs => rw [← List.take_append_drop idx l]
    rw [List.drop_eq_getElem_cons h]
  · exact List.eraseIdx_eq_take_drop_succ l idx

/-- Replacing the middle element by one whose relations are implied
preserves pairwiseness. -/
theorem pairwise_middle_mono {α : Type} {R : α → α → Prop}
    {pre post : List α} {b b' : α}
    (h : (pre ++ b :: post).Pairwise R)
    (h1 : ∀ x, R x b → R x b') (h2 : ∀ y, R b y → R b' y) :
    (pre ++ b' :: post).Pairwise R := by
  rw [List.pairwise_append] at h ⊢
  obtain ⟨hpre, hmid, hcross⟩ := h
  rw [List.pairwise_cons] at hmid ⊢
  refine ⟨hpre, ⟨fun y hy => h2 y (hmid.1 y hy), hmid.2⟩, ?_⟩
  intro x hx y hy
  rcases List.mem_cons.mp hy with hy | hy
  · subst hy
    exact h1 x (hcross x hx b (List.mem_cons_self b post))
  · exact hcross x hx y (List.mem_cons_of_mem b hy)

/-- Removing the middle element preserves pairwiseness. -/
theorem pairwise_middle_drop {α : Type} {R : α → α → Prop}
    {pre post : List α} {b : α}
    (h : (pre ++ b :: post).Pairwise R) : (pre ++ post).Pairwise R :=
  h.sublist (List.Sublist.append (List.Sublist.refl pre) (List.sublist_cons_self b post))

/-- The head of a dropWhile residue fails the predicate. -/
theorem dropWhile_head_not {α : Type} (p : α → Bool) (l : List α) (c : α)
    (rest : List α) (h : l.dropWhile p = c :: rest) : p c = false := by
  induction l with
  | nil => simp [List.dropWhile] at h
  | cons x xs ih =>
    rw [List.dropWhile_cons] at h
    split at h
    · exact ih h
    · next hx =>
      injection h with h1 h2
      subst h1
      simpa using hx

/-- Decomposition of the result of the insert-with-merge of dxmaFree on
a well-formed list: the result replaces a contiguous group (the freed
interval plus at most one list neighbour on each side) by one working
node w, leaving the other nodes untouched and in order; w covers the
freed interval, starts at the freed offset or at the absorbed
predecessor, ends at the freed end or at the absorbed successor, and
the per-heap free sizes grow by exactly the freed size. -/
theorem insertFree_decomp (nb : FreeBlock) (l : List FreeBlock) (cap : Nat → Nat)
    (hcapM : ∀ i, cap i < M)
    (hws : ∀ x ∈ l, 1 ≤ x.size ∧ x.offset + x.size ≤ cap x.heap_index)
    (hnb : 1 ≤ nb.size ∧ nb.offset + nb.size ≤ cap nb.heap_index)
    (hhl : ∀ x ∈ l, x.heap = some x.heap_index)
    (hhnb : nb.heap = some nb.heap_index)
    (hord : l.Pairwise blkR)
    (hdisj : ∀ x ∈ l, x.heap_index = nb.heap_index →
      (nb.offset + nb.size ≤ x.offset ∨ x.offset + x.size ≤ nb.offset)) :
    ∃ B w A',
      insertFree nb l = B ++ w :: A' ∧
      (B ++ A').Sublist l ∧
      (∀ x ∈ B, x.heap_index = nb.heap_index → x.offset + x.size ≤ w.offset) ∧
      (∀ y ∈ A', y.heap_index = nb.heap_index → w.offset + w.size ≤ y.offset) ∧
      w.heap_index = nb.heap_index ∧
      w.heap = nb.heap ∧
      1 ≤ w.size ∧
      w.offset ≤ nb.offset ∧
      nb.offset + nb.size ≤ w.offset + w.size ∧
      (w.offset = nb.offset ∨
        ∃ p, p ∈ l ∧ p.heap_index = nb.heap_index ∧ w.offset = p.offset ∧
          p.offset + p.size = nb.offset) ∧
      (w.offset + w.size = nb.offset + nb.size ∨
        ∃ c, c ∈ l ∧ c.heap_index = nb.heap_index ∧
          w.offset + w.size = c.offset + c.size ∧ nb.offset + nb.size = c.offset) ∧
      (∀ i, sumFreeAt (B ++ w :: A') i =
        sumFreeAt l i + (if nb.heap_index = i then nb.size else 0)) := by
  have hC : l.takeWhile (contB nb) ++ l.dropWhile (contB nb) = l :=
    List.takeWhile_append_dropWhile (contB nb) l
  have hnbM : nb.offset + nb.size < M := lt_of_le_of_lt hnb.2 (hcapM _)
  have hdisp := insertFree_eq_cases nb l
  have hmem_bef : ∀ x ∈ l.takeWhile (contB nb), x ∈ l :=
    fun x hx => (List.takeWhile_sublist (contB nb)).subset hx
  have hmem_aft : ∀ x ∈ l.dropWhile (contB nb), x ∈ l :=
    fun x hx => (List.dropWhile_sublist (contB nb)).subset hx
  have hbef_pw : (l.takeWhile (contB nb)).Pairwise blkR :=
    List.Pairwise.sublist (List.takeWhile_sublist (contB nb)) hord
  have haft_pw : (l.dropWhile (contB nb)).Pairwise blkR :=
    List.Pairwise.sublist (List.dropWhile_sublist (contB nb)) hord
  have F1 : ∀ x ∈ l.takeWhile (contB nb), x.heap_index = nb.heap_index →
      x.offset + x.size ≤ nb.offset := by
    intro x hx hsame
    have hc := List.mem_takeWhile_imp hx
    unfold contB at hc
    rw [hsame] at hc
    simp only [bne_self_eq_false, Bool.false_or, decide_eq_true_eq] at hc
    rcases hdisj x (hmem_bef x hx) hsame with h | h
    · omega
    · exact h
  have F2 : ∀ c rest', l.dropWhile (contB nb) = c :: rest' →
      c.heap_index = nb.heap_index ∧ nb.offset + nb.size ≤ c.offset ∧
      (∀ y ∈ rest', y.heap_index = nb.heap_index → c.offset + c.size ≤ y.offset) := by
    intro c rest' haft
    have hcf : contB nb c = false := dropWhile_head_not _ _ _ _ haft
    unfold contB at hcf
    simp only [Bool.or_eq_false_iff, bne_eq_false_iff_eq, decide_eq_false_iff_not,
      Nat.not_lt] at hcf
    have hcl : c ∈ l := hmem_aft c (haft ▸ List.mem_cons_self c rest')
    have hcs := (hws c hcl).1
    have hnc : nb.offset + nb.size ≤ c.offset := by
      rcases hdisj c hcl hcf.1 with h | h
      · exact h
      · omega
    refine ⟨hcf.1, hnc, ?_⟩
    intro y hy hsame
    have hpw : (c :: rest').Pairwise blkR := haft ▸ haft_pw
    have hcy : blkR c y := (List.pairwise_cons.mp hpw).1 y hy
    have := hcy (hcf.1.trans hsame.symm)
    omega
  cases hlast : (l.takeWhile (contB nb)).getLast? with
  | none =>
    have hbe : l.takeWhile (contB nb) = [] := List.getLast?_eq_none_iff.mp hlast
    cases haft : l.dropWhile (contB nb) with
    | nil =>
      have hl0 : l = [] := by rw [← hC, hbe, haft]; rfl
      refine ⟨[], nb, [], ?_, ?_, ?_, ?_, rfl, rfl, hnb.1, le_refl _, le_refl _,
        Or.inl rfl, Or.inl rfl, ?_⟩
      · rw [hdisp.2 hbe, haft]
        rfl
      · simp [hl0]
      · intro x hx
        simp at hx
      · intro y hy
        simp at hy
      · intro i
        rw [hl0, List.nil_append, sumFreeAt_cons, sumFreeAt_nil]
        ring
    | cons c rest' =>
      obtain ⟨hchi, hcnb, hcrest⟩ := F2 c rest' haft
      have hcl : c ∈ l := hmem_aft c (haft ▸ List.mem_cons_self c rest')
      have hcM : c.offset + c.size < M := lt_of_le_of_lt (hws c hcl).2 (hcapM _)
      have hcs := (hws c hcl).1
      by_cases hg : (nb.offset + nb.size) % M = c.offset ∧ c.heap_index = nb.heap_index
      · -- forward merge at the head of the list
        have hge : nb.offset + nb.size = c.offset := by
          rw [← hg.1, Nat.mod_eq_of_lt hnbM]
        have hsum : nb.size + c.size < M := by omega
        refine ⟨[], ⟨nb.size + c.size, nb.offset, nb.heap_type, nb.heap_index, nb.heap⟩,
          rest', ?_, ?_, ?_, ?_, rfl, rfl, by dsimp only; omega, le_refl _,
          by dsimp only; omega, Or.inl rfl,
          Or.inr ⟨c, hcl, hg.2, by dsimp only; omega, hge⟩, ?_⟩
        · rw [hdisp.2 hbe, haft, fwdMerge_of_merge nb c rest' hg, Nat.mod_eq_of_lt hsum]
          rfl
        · exact (List.sublist_cons_self c rest').trans
            (haft ▸ List.dropWhile_sublist (contB nb))
        · intro x hx
          simp at hx
        · intro y hy hsame
          dsimp only
          have := hcrest y hy hsame
          omega
        · intro i
          rw [List.nil_append, sumFreeAt_cons, ← hC, hbe, List.nil_append, haft,
              sumFreeAt_cons]
          dsimp only
          by_cases hi : nb.heap_index = i
          · rw [if_pos hi, if_pos (hg.2.trans hi), if_pos hi]
            omega
          · rw [if_neg hi, if_neg (fun h => hi (hg.2.symm.trans h)), if_neg hi]
            omega
      · -- plain insert at the head of the list
        refine ⟨[], nb, c :: rest', ?_, ?_, ?_, ?_, rfl, rfl, hnb.1, le_refl _, le_refl _,
          Or.inl rfl, Or.inl rfl, ?_⟩
        · rw [hdisp.2 hbe, haft, fwdMerge_of_no_merge nb _ ?_]
          · rfl
          · intro c2 rest2 he hcon
            injection he with he1 he2
            rw [← he1] at hcon
            exact hg hcon
        · exact haft ▸ List.dropWhile_sublist (contB nb)
        · intro x hx
          simp at hx
        · intro y hy hsame
          rcases List.mem_cons.mp hy with hy | hy
          · subst hy
            exact hcnb
          · have h1 := hcrest y hy hsame
            have h2 := (hws c hcl).1
            omega
        · intro i
          rw [List.nil_append, sumFreeAt_cons, ← hC, hbe, List.nil_append, haft]
          by_cases hi : nb.heap_index = i
          · rw [if_pos hi]
            omega
          · rw [if_neg hi]
            omega
  | some p =>
    obtain ⟨pre, hsplit⟩ := List.getLast?_eq_some_iff.mp hlast
    have hpbef : p ∈ l.takeWhile (contB nb) := by
      rw [hsplit]
      exact List.mem_append_right pre (List.mem_singleton.mpr rfl)
    have hpl : p ∈ l := hmem_bef p hpbef
    have hpM : p.offset + p.size < M := lt_of_le_of_lt (hws p hpl).2 (hcapM _)
    have hps := (hws p hpl).1
    have hbefsplit_pw : (pre ++ [p]).Pairwise blkR := hsplit ▸ hbef_pw
    have hprep : ∀ x ∈ pre, blkR x p := fun x hx =>
      (List.pairwise_append.mp hbefsplit_pw).2.2 x hx p (List.mem_singleton.mpr rfl)
    have hpreF1 : ∀ x ∈ pre ++ [p], x.heap_index = nb.heap_index →
        x.offset + x.size ≤ nb.offset := by
      intro x hx hsame
      refine F1 x ?_ hsame
      rw [hsplit]
      exact hx
    have hl2 : ∀ tail, l.dropWhile (contB nb) = tail → (pre ++ [p]) ++ tail = l := by
      intro tail htail
      rw [← hC, hsplit, htail]
    by_cases hgb : (p.offset + p.size) % M = nb.offset ∧ p.heap_index = nb.heap_index
    · -- backward merge with the predecessor
      have hpe : p.offset + p.size = nb.offset := by
        rw [← hgb.1, Nat.mod_eq_of_lt hpM]
      have hsumb : p.size + nb.size < M := by omega
      have hr := hdisp.1 pre p hsplit
      rw [if_pos hgb, Nat.mod_eq_of_lt hsumb] at hr
      have hw6 : p.heap = nb.heap := by
        rw [hhl p hpl, hhnb, hgb.2]
      have hr3 : ∀ x ∈ pre, x.heap_index = nb.heap_index →
          x.offset + x.size ≤ p.offset := by
        intro x hx hsame
        exact hprep x hx (hsame.trans hgb.2.symm)
      cases haft : l.dropWhile (contB nb) with
      | nil =>
        rw [haft] at hr
        refine ⟨pre, ⟨p.size + nb.size, p.offset, p.heap_type, p.heap_index, p.heap⟩, [],
          ?_, ?_, hr3, ?_, hgb.2, hw6, by dsimp only; omega, by dsimp only; omega,
          by dsimp only; omega,
          Or.inr ⟨p, hpl, hgb.2, rfl, hpe⟩, Or.inl (by dsimp only; omega), ?_⟩
        · rw [hr]
          rfl
        · rw [List.append_nil, ← hl2 [] haft]
          exact (List.sublist_append_left pre [p]).trans
            (List.sublist_append_left (pre ++ [p]) [])
        · intro y hy
          simp at hy
        · intro i
          rw [← hl2 [] haft]
          simp only [sumFreeAt_append, sumFreeAt_cons, sumFreeAt_nil]
          rw [hgb.2]
          by_cases hi : nb.heap_index = i
          · simp only [if_pos hi] <;> omega
          · simp only [if_neg hi] <;> omega
      | cons c rest' =>
        obtain ⟨hchi, hcnb, hcrest⟩ := F2 c rest' haft
        have hcl : c ∈ l := hmem_aft c (haft ▸ List.mem_cons_self c rest')
        have hcM : c.offset + c.size < M := lt_of_le_of_lt (hws c hcl).2 (hcapM _)
        have hcs := (hws c hcl).1
        rw [haft] at hr
        by_cases hg2 : (p.offset + (p.size + nb.size)) % M = c.offset ∧
            c.heap_index = p.heap_index
        · -- both merges: the three intervals collapse
          have hge2 : p.offset + (p.size + nb.size) = c.offset := by
            rw [← hg2.1, Nat.mod_eq_of_lt (by omega)]
          have hsum2 : p.size + nb.size + c.size < M := by omega
          rw [fwdMerge_of_merge
            ⟨p.size + nb.size, p.offset, p.heap_type, p.heap_index, p.heap⟩ c rest'
            ⟨hg2.1, hg2.2⟩] at hr
          dsimp only at hr
          rw [Nat.mod_eq_of_lt hsum2] at hr
          refine ⟨pre, ⟨p.size + nb.size + c.size, p.offset, p.heap_type, p.heap_index,
            p.heap⟩, rest', ?_, ?_, hr3, ?_, hgb.2, hw6, by dsimp only; omega,
            by dsimp only; omega, by dsimp only; omega,
            Or.inr ⟨p, hpl, hgb.2, rfl, hpe⟩,
            Or.inr ⟨c, hcl, hchi, by dsimp only; omega, by omega⟩, ?_⟩
          · rw [hr]
          · rw [← hl2 (c :: rest') haft]
            exact List.Sublist.append (List.sublist_append_left pre [p])
              (List.sublist_cons_self c rest')
          · intro y hy hsame
            dsimp only
            have := hcrest y hy hsame
            omega
          · intro i
            rw [← hl2 (c :: rest') haft]
            simp only [sumFreeAt_append, sumFreeAt_cons, sumFreeAt_nil]
            rw [hgb.2, hchi]
            by_cases hi : nb.heap_index = i
            · simp only [if_pos hi] <;> omega
            · simp only [if_neg hi] <;> omega
        · -- backward merge only
          have h2 : ∀ c2 rest2, (c :: rest') = (c2 :: rest2) →
              ¬((p.offset + (p.size + nb.size)) % M = c2.offset ∧
                c2.heap_index = p.heap_index) := by
            intro c2 rest2 he hcon
            injection he with he1 he2
            rw [← he1] at hcon
            exact hg2 hcon
          rw [fwdMerge_of_no_merge
            ⟨p.size + nb.size, p.offset, p.heap_type, p.heap_index, p.heap⟩ _ h2] at hr
          refine ⟨pre, ⟨p.size + nb.size, p.offset, p.heap_type, p.heap_index, p.heap⟩,
            c :: rest', ?_, ?_, hr3, ?_, hgb.2, hw6, by dsimp only; omega,
            by dsimp only; omega, by dsimp only; omega,
            Or.inr ⟨p, hpl, hgb.2, rfl, hpe⟩, Or.inl (by dsimp only; omega), ?_⟩
          · rw [hr]
          · rw [← hl2 (c :: rest') haft]
            exact List.Sublist.append (List.sublist_append_left pre [p])
              (List.Sublist.refl (c :: rest'))
          · intro y hy hsame
            dsimp only
            rcases List.mem_cons.mp hy with hy | hy
            · subst hy
              omega
            · have := hcrest y hy hsame
              omega
          · intro i
            rw [← hl2 (c :: rest') haft]
            simp only [sumFreeAt_append, sumFreeAt_cons, sumFreeAt_nil]
            rw [hgb.2]
            by_cases hi : nb.heap_index = i
            · simp only [if_pos hi] <;> omega
            · simp only [if_neg hi] <;> omega
    · -- no backward merge: the new block is spliced in after p
      have hr := hdisp.1 pre p hsplit
      rw [if_neg hgb] at hr
      cases haft : l.dropWhile (contB nb) with
      | nil =>
        rw [haft] at hr
        refine ⟨pre ++ [p], nb, [], ?_, ?_, hpreF1, ?_, rfl, rfl, hnb.1, le_refl _,
          le_refl _, Or.inl rfl, Or.inl rfl, ?_⟩
        · rw [hr]
          rfl
        · rw [List.append_nil, ← hl2 [] haft]
          exact List.sublist_append_left (pre ++ [p]) []
        · intro y hy
          simp at hy
        · intro i
          rw [← hl2 [] haft]
          simp only [sumFreeAt_append, sumFreeAt_cons, sumFreeAt_nil]
          ring
      | cons c rest' =>
        obtain ⟨hchi, hcnb, hcrest⟩ := F2 c rest' haft
        have hcl : c ∈ l := hmem_aft c (haft ▸ List.mem_cons_self c rest')
        have hcM : c.offset + c.size < M := lt_of_le_of_lt (hws c hcl).2 (hcapM _)
        have hcs := (hws c hcl).1
        rw [haft] at hr
        by_cases hg : (nb.offset + nb.size) % M = c.offset ∧ c.heap_index = nb.heap_index
        · -- forward merge only
          have hge : nb.offset + nb.size = c.offset := by
            rw [← hg.1, Nat.mod_eq_of_lt hnbM]
          have hsum : nb.size + c.size < M := by omega
          rw [fwdMerge_of_merge nb c rest' hg, Nat.mod_eq_of_lt hsum] at hr
          refine ⟨pre ++ [p], ⟨nb.size + c.size, nb.offset, nb.heap_type, nb.heap_index,
            nb.heap⟩, rest', ?_, ?_, hpreF1, ?_, rfl, rfl, by dsimp only; omega,
            le_refl _, by dsimp only; omega, Or.inl rfl,
            Or.inr ⟨c, hcl, hg.2, by dsimp only; omega, hge⟩, ?_⟩
          · rw [hr]
          · rw [← hl2 (c :: rest') haft]
            exact List.Sublist.append (List.Sublist.refl (pre ++ [p]))
              (List.sublist_cons_self c rest')
          · intro y hy hsame
            dsimp only
            have := hcrest y hy hsame
            omega
          · intro i
            rw [← hl2 (c :: rest') haft]
            simp only [sumFreeAt_append, sumFreeAt_cons, sumFreeAt_nil]
            rw [hchi]
            by_cases hi : nb.heap_index = i
            · simp only [if_pos hi] <;> omega
            · simp only [if_neg hi] <;> omega
        · -- no merge on either side
          have h2 : ∀ c2 rest2, (c :: rest') = (c2 :: rest2) →
              ¬((nb.offset + nb.size) % M = c2.offset ∧
                c2.heap_index = nb.heap_index) := by
            intro c2 rest2 he hcon
            injection he with he1 he2
            rw [← he1] at hcon
            exact hg hcon
          rw [fwdMerge_of_no_merge nb _ h2] at hr
          refine ⟨pre ++ [p], nb, c :: rest', ?_, ?_, hpreF1, ?_, rfl, rfl, hnb.1,
            le_refl _, le_refl _, Or.inl rfl, Or.inl rfl, ?_⟩
          · rw [hr]
          · rw [← hl2 (c :: rest') haft]
          · intro y hy hsame
            rcases List.mem_cons.mp hy with hy | hy
            · subst hy
              exact hcnb
            · have := hcrest y hy hsame
              omega
          · intro i
            rw [← hl2 (c :: rest') haft]
            simp only [sumFreeAt_append, sumFreeAt_cons, sumFreeAt_nil]
            ring

/-! Invariant preservation. -/

theorem capOf_le_of_inv (bs : Nat) (st : AllocatorState) (hinv : Inv bs st)
    (i : Nat) (hi : i < st.heapCount) : capOf st i ≤ 4 * bs := by
  unfold capOf
  have hlen : i < st.heapCaps.length := by
    rw [hinv.caps_len]
    exact hi
  rw [List.getD_eq_getElem _ _ hlen]
  exact hinv.caps_bound _ (List.getElem_mem hlen)

theorem capOf_lt_M (bs : Nat) (hbsM : 4 * bs < M) (st : AllocatorState)
    (hinv : Inv bs st) (i : Nat) : capOf st i < M := by
  by_cases hi : i < st.heapCount
  · exact lt_of_le_of_lt (capOf_le_of_inv bs st hinv i hi) hbsM
  · unfold capOf
    rw [List.getD_eq_default _ _ (by rw [hinv.caps_len]; omega)]
    omega

/-- Invariant preservation by the heap-growth branch of dxmaAllocate,
stated for an arbitrary new-heap capacity hbs. -/
theorem inv_growth_aux (bs : Nat) (st : AllocatorState) (t hbs s : Nat)
    (A : List (Option Nat)) (B : Bool)
    (hinv : Inv bs st) (hs1 : 1 ≤ s) (hsle : s ≤ hbs) (h4 : hbs ≤ 4 * bs)
    (h4M : 4 * bs < M) (hgap : 1 ≤ hbs - s) :
    Inv bs
      { freeList := (⟨(M + hbs - s) % M, s, t, st.heapCount, some st.heapCount⟩ :
          FreeBlock) :: st.freeList,
        heapCount := st.heapCount + 1,
        heapCaps := st.heapCaps ++ [hbs],
        heapsArr := A, oobWrite := B,
        live := st.live ++ [⟨s, 0, t, st.heapCount, some st.heapCount⟩] } := by
  have hmod : (M + hbs - s) % M = hbs - s := by
    have h1 : M + hbs - s = M + (hbs - s) := by omega
    rw [h1, Nat.add_mod_left, Nat.mod_eq_of_lt (by omega)]
  have hcapold : ∀ i, i < st.heapCaps.length →
      (st.heapCaps ++ [hbs]).getD i 0 = capOf st i := by
    intro i hi
    exact List.getD_append _ _ _ _ hi
  have hcapnew : (st.heapCaps ++ [hbs]).getD st.heapCount 0 = hbs := by
    rw [← hinv.caps_len, List.getD_append_right _ _ _ _ (le_refl _), Nat.sub_self]
    rfl
  constructor
  · -- caps_len
    rw [List.length_append, hinv.caps_len]
    rfl
  · -- caps_bound
    intro c hc
    rcases List.mem_append.mp hc with hc | hc
    · exact hinv.caps_bound c hc
    · rw [List.mem_singleton.mp hc]
      exact h4
  · -- blocks_wf
    intro b hb
    rcases List.mem_cons.mp hb with hb | hb
    · subst hb
      refine ⟨by dsimp only; omega, by dsimp only; omega, ?_, rfl⟩
      dsimp only [capOf]
      rw [hmod, hcapnew]
      omega
    · obtain ⟨h1, h2, h3, h4b⟩ := hinv.blocks_wf b hb
      refine ⟨by dsimp only; omega, h2, ?_, h4b⟩
      dsimp only [capOf]
      rw [hcapold _ (by rw [hinv.caps_len]; exact h1)]
      exact h3
  · -- live_wf
    intro a ha
    rcases List.mem_append.mp ha with ha | ha
    · obtain ⟨h1, h2, h3, h4a⟩ := hinv.live_wf a ha
      refine ⟨by dsimp only; omega, h2, ?_, h4a⟩
      dsimp only [capOf]
      rw [hcapold _ (by rw [hinv.caps_len]; exact h1)]
      exact h3
    · rw [List.mem_singleton.mp ha]
      refine ⟨by dsimp only; omega, hs1, ?_, rfl⟩
      dsimp only [capOf]
      rw [hcapnew]
      omega
  · -- ordered
    rw [List.pairwise_cons]
    refine ⟨?_, hinv.ordered⟩
    intro y hy hsame
    have := (hinv.blocks_wf y hy).1
    dsimp only at hsame
    omega
  · -- free_live_disj
    intro a ha b hb
    rcases List.mem_append.mp ha with ha | ha
    · rcases List.mem_cons.mp hb with hb | hb
      · subst hb
        intro hsame
        have := (hinv.live_wf a ha).1
        dsimp only at hsame
        omega
      · exact hinv.free_live_disj a ha b hb
    · rw [List.mem_singleton.mp ha]
      rcases List.mem_cons.mp hb with hb | hb
      · subst hb
        intro _
        dsimp only
        omega
      · intro hsame
        have := (hinv.blocks_wf b hb).1
        dsimp only at hsame
        omega
  · -- live_disj
    rw [List.pairwise_append]
    refine ⟨hinv.live_disj, List.pairwise_singleton _ _, ?_⟩
    intro a ha y hy hsame
    rw [List.mem_singleton.mp hy] at hsame
    have := (hinv.live_wf a ha).1
    dsimp only at hsame
    omega
  · -- conserv
    intro i hi
    simp only [sumFreeAt_cons, sumLiveAt_append, sumLiveAt_cons, sumLiveAt_nil]
    dsimp only [capOf]
    by_cases hnew : i = st.heapCount
    · subst hnew
      rw [if_pos rfl, if_pos rfl, hcapnew, hmod]
      rw [sumFreeAt_eq_zero _ _ (fun b hb => by
          have := (hinv.blocks_wf b hb).1; omega),
        sumLiveAt_eq_zero _ _ (fun a ha => by
          have := (hinv.live_wf a ha).1; omega)]
      omega
    · have hi2 : i < st.heapCount := by
        have : i < st.heapCount + 1 := hi
        omega
      rw [if_neg (fun h => hnew h.symm), if_neg (fun h => hnew h.symm),
        hcapold _ (by rw [hinv.caps_len]; exact hi2)]
      have := hinv.conserv i hi2
      omega

/-- Invariant preservation by dxmaAllocate under benign request sizes. -/
theorem inv_alloc (bs : Nat) (hbsM : 4 * bs < M) (st : AllocatorState)
    (size t al : Nat) (hinv : Inv bs st) (hs0 : size ≠ 0)
    (hs1 : 1 ≤ roundUp size al) (hs2 : roundUp size al ≤ bs) :
    Inv bs (dxmaAllocateFn bs st size t al).1 := by
  unfold dxmaAllocateFn
  rw [if_neg hs0]
  simp only
  split
  next l2 a hscan =>
    obtain ⟨pre, b, post, hsp, hpre, hbt, hbsz, ha, hcase⟩ :=
      allocScan_characterisation (roundUp size al) t hs1 st.freeList l2 a hscan
    have hbmem : b ∈ st.freeList := by
      rw [hsp]
      exact List.mem_append_right _ (List.mem_cons_self b post)
    obtain ⟨hbhc, hbs1, hbcap, hbheap⟩ := hinv.blocks_wf b hbmem
    have hcapM : capOf st b.heap_index < M := capOf_lt_M bs hbsM st hinv _
    have hordsp : (pre ++ b :: post).Pairwise blkR := hsp ▸ hinv.ordered
    have hpre_le : ∀ x ∈ pre, x.heap_index = b.heap_index →
        x.offset + x.size ≤ b.offset := by
      intro x hx hsame
      exact (List.pairwise_append.mp hordsp).2.2 x hx b (List.mem_cons_self b post) hsame
    have hpost_ge : ∀ y ∈ post, b.heap_index = y.heap_index →
        b.offset + b.size ≤ y.offset := by
      intro y hy hsame
      exact (List.pairwise_cons.mp (List.pairwise_append.mp hordsp).2.1).1 y hy hsame
    have hmem_of : ∀ x, x ∈ pre ++ post → x ∈ st.freeList := by
      intro x hx
      rw [hsp]
      rcases List.mem_append.mp hx with hx | hx
      · exact List.mem_append_left _ hx
      · exact List.mem_append_right _ (List.mem_cons_of_mem b hx)
    subst ha
    rcases hcase with ⟨hex, hl2⟩ | ⟨hlt, hl2⟩
    · -- exact size match: the node is removed
      subst hl2
      constructor
      · exact hinv.caps_len
      · exact hinv.caps_bound
      · intro x hx
        exact hinv.blocks_wf x (hmem_of x hx)
      · intro x hx
        rcases List.mem_append.mp hx with hx | hx
        · exact hinv.live_wf x hx
        · rw [List.mem_singleton.mp hx]
          refine ⟨hbhc, hs1, ?_, hbheap⟩
          show b.offset + roundUp size al ≤ capOf st b.heap_index
          omega
      · exact pairwise_middle_drop hordsp
      · intro L hL x hx
        rcases List.mem_append.mp hL with hL | hL
        · exact hinv.free_live_disj L hL x (hmem_of x hx)
        · rw [List.mem_singleton.mp hL]
          intro hsame
          dsimp only at hsame ⊢
          rcases List.mem_append.mp hx with hx | hx
          · have := hpre_le x hx hsame.symm
            omega
          · have := hpost_ge x hx hsame
            omega
      · rw [List.pairwise_append]
        refine ⟨hinv.live_disj, List.pairwise_singleton _ _, ?_⟩
        intro L hL y hy
        rw [List.mem_singleton.mp hy]
        intro hsame
        dsimp only at hsame
        have := hinv.free_live_disj L hL b hbmem hsame
        dsimp only
        omega
      · intro i hi
        dsimp only at hi ⊢
        have hold := hinv.conserv i hi
        rw [hsp] at hold
        unfold capOf at hold ⊢
        simp only [sumFreeAt_append, sumFreeAt_cons, sumLiveAt_append, sumLiveAt_cons,
          sumLiveAt_nil] at hold ⊢
        by_cases hbi : b.heap_index = i
        · simp only [if_pos hbi] at hold ⊢
          omega
        · simp only [if_neg hbi] at hold ⊢
          omega
    · -- larger match: the node is shrunk in place
      subst hl2
      have hoffmod : (b.offset + roundUp size al) % M = b.offset + roundUp size al :=
        Nat.mod_eq_of_lt (by omega)
      rw [hoffmod]
      constructor
      · exact hinv.caps_len
      · exact hinv.caps_bound
      · intro x hx
        rcases List.mem_append.mp hx with hx | hx
        · exact hinv.blocks_wf x (hmem_of x (List.mem_append_left _ hx))
        · rcases List.mem_cons.mp hx with hx | hx
          · subst hx
            refine ⟨hbhc, by dsimp only; omega, ?_, hbheap⟩
            show b.offset + roundUp size al + (b.size - roundUp size al) ≤
              capOf st b.heap_index
            omega
          · exact hinv.blocks_wf x (hmem_of x (List.mem_append_right _ hx))
      · intro x hx
        rcases List.mem_append.mp hx with hx | hx
        · exact hinv.live_wf x hx
        · rw [List.mem_singleton.mp hx]
          refine ⟨hbhc, hs1, ?_, hbheap⟩
          show b.offset + roundUp size al ≤ capOf st b.heap_index
          omega
      · refine pairwise_middle_mono hordsp ?_ ?_
        · intro x hx hsame
          dsimp only at hsame ⊢
          have := hx hsame
          omega
        · intro y hb hsame
          dsimp only at hsame ⊢
          have := hb hsame
          omega
      · intro L hL x hx
        rcases List.mem_append.mp hL with hL | hL
        · rcases List.mem_append.mp hx with hx | hx
          · exact hinv.free_live_disj L hL x (hmem_of x (List.mem_append_left _ hx))
          · rcases List.mem_cons.mp hx with hx | hx
            · subst hx
              intro hsame
              dsimp only at hsame ⊢
              have := hinv.free_live_disj L hL b hbmem hsame
              omega
            · exact hinv.free_live_disj L hL x (hmem_of x (List.mem_append_right _ hx))
        · rw [List.mem_singleton.mp hL]
          intro hsame
          dsimp only at hsame ⊢
          rcases List.mem_append.mp hx with hx | hx
          · have := hpre_le x hx hsame.symm
            omega
          · rcases List.mem_cons.mp hx with hx | hx
            · subst hx
              dsimp only
              omega
            · have := hpost_ge x hx hsame
              omega
      · rw [List.pairwise_append]
        refine ⟨hinv.live_disj, List.pairwise_singleton _ _, ?_⟩
        intro L hL y hy
        rw [List.mem_singleton.mp hy]
        intro hsame
        dsimp only at hsame
        have := hinv.free_live_disj L hL b hbmem hsame
        dsimp only
        omega
      · intro i hi
        dsimp only at hi ⊢
        have hold := hinv.conserv i hi
        rw [hsp] at hold
        unfold capOf at hold ⊢
        simp only [sumFreeAt_append, sumFreeAt_cons, sumLiveAt_append, sumLiveAt_cons,
          sumLiveAt_nil] at hold ⊢
        by_cases hbi : b.heap_index = i
        · simp only [if_pos hbi] at hold ⊢
          omega
        · simp only [if_neg hbi] at hold ⊢
          omega
  next hscan =>
    dsimp only
    by_cases hcond : (M + bs - roundUp size al) % M = 0
    · have hsbs : roundUp size al = bs := by
        by_contra hne
        have hlt : roundUp size al < bs := lt_of_le_of_ne hs2 hne
        have h1 : M + bs - roundUp size al = M + (bs - roundUp size al) := by omega
        rw [h1, Nat.add_mod_left, Nat.mod_eq_of_lt (by omega)] at hcond
        omega
      rw [if_pos hcond, Nat.mod_eq_of_lt (by omega : roundUp size al * 4 < M)]
      exact inv_growth_aux bs st t (roundUp size al * 4) (roundUp size al)
        _ _ hinv hs1 (by omega) (by omega) hbsM (by omega)
    · have hlt : roundUp size al < bs := by
        rcases lt_or_eq_of_le hs2 with h | h
        · exact h
        · exfalso
          apply hcond
          rw [h]
          have h1 : M + bs - bs = M := by omega
          rw [h1, Nat.mod_self]
      rw [if_neg hcond]
      exact inv_growth_aux bs st t bs (roundUp size al)
        _ _ hinv hs1 (by omega) (by omega) hbsM (by omega)

/-- Erasing one live allocation removes exactly its size from the sum
of its heap. -/
theorem sumLiveAt_eraseIdx (l : List Allocation) (idx : Nat)
    (h : idx < l.length) (i : Nat) :
    sumLiveAt (l.eraseIdx idx) i +
      (if (l[idx]).heap_index = i then (l[idx]).size else 0) = sumLiveAt l i := by
  obtain ⟨hdc, her⟩ := live_decomp l idx h
  rw [her]
  conv_rhs => rw [hdc]
  simp only [sumLiveAt_append, sumLiveAt_cons]
  by_cases hi : (l[idx]).heap_index = i
  · simp only [if_pos hi]
    omega
  · simp only [if_neg hi]
    omega

/-- Invariant preservation by dxmaFree. -/
theorem inv_free (bs : Nat) (hbsM : 4 * bs < M) (st : AllocatorState)
    (idx : Nat) (hinv : Inv bs st) : Inv bs (dxmaFreeOp st idx) := by
  unfold dxmaFreeOp
  split
  next h =>
    split
    next hguard => exact hinv
    next hguard =>
      obtain ⟨hdc, her⟩ := live_decomp st.live idx h
      have hmem : st.live[idx] ∈ st.live := List.getElem_mem h
      obtain ⟨hahc, has1, hacap, haheap⟩ := hinv.live_wf _ hmem
      have hdisj : ∀ x ∈ st.freeList,
          x.heap_index = (st.live[idx]).heap_index →
          ((st.live[idx]).offset + (st.live[idx]).size ≤ x.offset ∨
            x.offset + x.size ≤ (st.live[idx]).offset) := by
        intro x hx hsame
        exact hinv.free_live_disj _ hmem x hx hsame.symm
      obtain ⟨B, w, A', r1, r2, r3, r4, r5, r6, r7, r8, r9, r10, r11, r12⟩ :=
        insertFree_decomp
          ⟨(st.live[idx]).size, (st.live[idx]).offset, (st.live[idx]).heap_type,
           (st.live[idx]).heap_index, (st.live[idx]).heap⟩
          st.freeList (capOf st) (capOf_lt_M bs hbsM st hinv)
          (fun x hx => ⟨(hinv.blocks_wf x hx).2.1, (hinv.blocks_wf x hx).2.2.1⟩)
          ⟨has1, hacap⟩
          (fun x hx => (hinv.blocks_wf x hx).2.2.2)
          haheap hinv.ordered hdisj
      dsimp only at r3 r4 r5 r6 r8 r9 r10 r11 r12
      have hsub := r2.subset
      have hEr : ∀ x ∈ st.live.eraseIdx idx, x ∈ st.live := by
        intro x hx
        rw [her] at hx
        rw [hdc]
        rcases List.mem_append.mp hx with hx | hx
        · exact List.mem_append_left _ hx
        · exact List.mem_append_right _ (List.mem_cons_of_mem _ hx)
      have hBA := hinv.ordered.sublist r2
      rw [r1]
      constructor
      · exact hinv.caps_len
      · exact hinv.caps_bound
      · intro x hx
        rcases List.mem_append.mp hx with hxB | hxWA
        · exact hinv.blocks_wf x (hsub (List.mem_append_left A' hxB))
        rcases List.mem_cons.mp hxWA with rfl | hxA
        · refine ⟨?_, r7, ?_, ?_⟩
          · rw [r5]
            exact hahc
          · show x.offset + x.size ≤ capOf st x.heap_index
            rw [r5]
            rcases r11 with h11 | ⟨c, hc, hchi, hce, hcb⟩
            · rw [h11]
              exact hacap
            · rw [hce, ← hchi]
              exact (hinv.blocks_wf c hc).2.2.1
          · rw [r6, r5]
            exact haheap
        · exact hinv.blocks_wf x (hsub (List.mem_append_right B hxA))
      · intro x hx
        exact hinv.live_wf x (hEr x hx)
      · rw [List.pairwise_append]
        refine ⟨(List.pairwise_append.mp hBA).1, ?_, ?_⟩
        · rw [List.pairwise_cons]
          refine ⟨?_, (List.pairwise_append.mp hBA).2.1⟩
          intro y hy hsame
          exact r4 y hy (by rw [← hsame, r5])
        · intro x hx y hy
          rcases List.mem_cons.mp hy with rfl | hy
          · intro hsame
            exact r3 x hx (hsame.trans r5)
          · exact (List.pairwise_append.mp hBA).2.2 x hx y hy
      · intro L hL x hx
        have hLlive : L ∈ st.live := hEr L hL
        rcases List.mem_append.mp hx with hxB | hxWA
        · exact hinv.free_live_disj L hLlive x (hsub (List.mem_append_left A' hxB))
        rcases List.mem_cons.mp hxWA with rfl | hxA
        · intro hsame
          have hLa : L.heap_index = (st.live[idx]).heap_index := hsame.trans r5
          obtain ⟨hLhc, hLs1, hLcap, hLheap⟩ := hinv.live_wf L hLlive
          have hPW : (st.live.take idx ++
              st.live[idx] :: st.live.drop (idx + 1)).Pairwise disjAA :=
            hdc ▸ hinv.live_disj
          rw [her] at hL
          have hdLa : L.offset + L.size ≤ (st.live[idx]).offset ∨
              (st.live[idx]).offset + (st.live[idx]).size ≤ L.offset := by
            rcases List.mem_append.mp hL with hL | hL
            · exact (List.pairwise_append.mp hPW).2.2 L hL _
                (List.mem_cons_self _ _) hLa
            · exact ((List.pairwise_cons.mp
                (List.pairwise_append.mp hPW).2.1).1 L hL hLa.symm).symm
          rcases hdLa with hle | hge
          · left
            rcases r10 with h10 | ⟨p, hp, hphi, hpo, hpe⟩
            · omega
            · have hLp : L.heap_index = p.heap_index := by
                rw [hLa, ← hphi]
              have h2 := hinv.free_live_disj L hLlive p hp hLp
              omega
          · right
            rcases r11 with h11 | ⟨c, hc, hchi, hce, hcb⟩
            · omega
            · have hLc : L.heap_index = c.heap_index := by
                rw [hLa, ← hchi]
              have h2 := hinv.free_live_disj L hLlive c hc hLc
              omega
        · exact hinv.free_live_disj L hLlive x (hsub (List.mem_append_right B hxA))
      · rw [her]
        exact pairwise_middle_drop (hdc ▸ hinv.live_disj)
      · intro i hi
        dsimp only at hi ⊢
        have hold := hinv.conserv i hi
        have hsl := sumLiveAt_eraseIdx st.live idx h i
        have hsf := r12 i
        unfold capOf at hold ⊢
        dsimp only
        by_cases hai : (st.live[idx]).heap_index = i
        · simp only [if_pos hai] at hsl hsf
          omega
        · simp only [if_neg hai] at hsl hsf
          omega
  next h => exact hinv

/-- Invariant preservation by one valid step. -/
theorem inv_step (bs : Nat) (hbsM : 4 * bs < M) (st : AllocatorState)
    (op : Op) (hinv : Inv bs st) (hop : opValid bs op) :
    Inv bs (dxmaStep bs st op) := by
  cases op with
  | alloc s t al =>
    exact inv_alloc bs hbsM st s t al hinv hop.1 hop.2.1 hop.2.2
  | free i =>
    exact inv_free bs hbsM st i hinv

/-- The fresh allocator satisfies the invariant. -/
theorem inv_init (bs : Nat) : Inv bs initState := by
  constructor
  · rfl
  · intro c hc
    simp [initState] at hc
  · intro b hb
    simp [initState] at hb
  · intro a ha
    simp [initState] at ha
  · exact List.Pairwise.nil
  · intro a ha
    simp [initState] at ha
  · exact List.Pairwise.nil
  · intro i hi
    simp [initState] at hi

/-- The invariant holds after any valid trace. -/
theorem inv_run (bs : Nat) (hbsM : 4 * bs < M) (tr : List Op)
    (hval : traceValid bs tr) : Inv bs (runDxma bs tr) := by
  unfold runDxma
  have hgen : ∀ st : AllocatorState, Inv bs st →
      Inv bs (tr.foldl (dxmaStep bs) st) := by
    induction tr with
    | nil => intro st hst; exact hst
    | cons op rest ih =>
      intro st hst
      rw [List.foldl_cons]
      exact ih (fun o ho => hval o (List.mem_cons_of_mem op ho))
        _ (inv_step bs hbsM st op hst (hval op (List.mem_cons_self op rest)))
  exact hgen initState (inv_init bs)

/-- C2 (amended): after any sequence of valid operations the free list
is, within every heap, in ascending offset order with pairwise disjoint
intervals: any two entries of the same heap appear with the earlier one
entirely below the later one.  The global (heap_index, offset) sorting
and the no-adjacent-contiguity clause of the original claim are refuted
by c2_cx. -/
theorem c2_per_heap_order (bs : Nat) (tr : List Op) (hbs : 4 * bs < M)
    (hval : traceValid bs tr) :
    (runDxma bs tr).freeList.Pairwise blkR :=
  (inv_run bs hbs tr hval).ordered

/-- Witness for c2_per_heap_order at a concrete two-operation trace. -/
theorem c2_per_heap_order_witness :
    4 * DXMA_HEAP_BLOCK_SIZE < M ∧
    traceValid DXMA_HEAP_BLOCK_SIZE [Op.alloc 100 2 0, Op.free 0] ∧
    (runDxma DXMA_HEAP_BLOCK_SIZE
      [Op.alloc 100 2 0, Op.free 0]).freeList.Pairwise blkR :=
  ⟨by decide, by decide,
   c2_per_heap_order DXMA_HEAP_BLOCK_SIZE [Op.alloc 100 2 0, Op.free 0]
     (by decide) (by decide)⟩

/-- C3 (amended): after any sequence of operations in which every
allocation has nonzero size and a rounded size between 1 and the
configured block size, every created heap conserves its capacity: the
free interval sizes of the heap plus the live allocation sizes of the
heap sum to the capacity recorded at heap creation.  Without the size
restriction the property is refuted by c3_cx. -/
theorem c3_capacity_conservation (bs : Nat) (tr : List Op) (hbs : 4 * bs < M)
    (hval : traceValid bs tr) :
    ∀ i < (runDxma bs tr).heapCount,
      sumFreeAt (runDxma bs tr).freeList i + sumLiveAt (runDxma bs tr).live i
        = capOf (runDxma bs tr) i :=
  (inv_run bs hbs tr hval).conserv

/-- Witness for c3_capacity_conservation at a concrete trace and heap. -/
theorem c3_capacity_conservation_witness :
    4 * DXMA_HEAP_BLOCK_SIZE < M ∧
    traceValid DXMA_HEAP_BLOCK_SIZE [Op.alloc 100 2 0, Op.alloc 50 1 4] ∧
    0 < (runDxma DXMA_HEAP_BLOCK_SIZE
      [Op.alloc 100 2 0, Op.alloc 50 1 4]).heapCount ∧
    sumFreeAt (runDxma DXMA_HEAP_BLOCK_SIZE
        [Op.alloc 100 2 0, Op.alloc 50 1 4]).freeList 0 +
      sumLiveAt (runDxma DXMA_HEAP_BLOCK_SIZE
        [Op.alloc 100 2 0, Op.alloc 50 1 4]).live 0 =
      capOf (runDxma DXMA_HEAP_BLOCK_SIZE
        [Op.alloc 100 2 0, Op.alloc 50 1 4]) 0 :=
  ⟨by decide, by decide, by decide,
   c3_capacity_conservation DXMA_HEAP_BLOCK_SIZE
     [Op.alloc 100 2 0, Op.alloc 50 1 4] (by decide) (by decide) 0 (by decide)⟩

/-- The two free-list scans are the same function. -/
theorem dx12AllocScan_eq_allocScan (s t : Nat) (l : List FreeBlock) :
    dx12AllocScan s t l = allocScan s t l := by
  induction l with
  | nil => rfl
  | cons b rest ih =>
    unfold dx12AllocScan allocScan
    rw [ih]

/-- The two insert-with-merge routines are the same function. -/
theorem dx12InsertFree_eq_insertFree (nb : FreeBlock) (l : List FreeBlock) :
    dx12InsertFree nb l = insertFree nb l := rfl

/-- Allocate leaves both variants in the same state. -/
theorem dx12_alloc_state_eq (bs : Nat) (st : AllocatorState)
    (size t al : Nat) :
    (dx12AllocateFn bs st size t al).1 = (dxmaAllocateFn bs st size t al).1 := by
  simp only [dx12AllocateFn, dxmaAllocateFn, dx12AllocScan_eq_allocScan]
  by_cases h0 : size = 0
  · simp only [if_pos h0]
  · simp only [if_neg h0]
    cases hsc : allocScan (roundUp size al) t st.freeList with
    | none => rfl
    | some pa => rfl

/-- The allocation returned by dxmaAllocate is the one returned by
dx12_ma Allocate whenever the size is nonzero. -/
theorem dx12_alloc_out_eq (bs : Nat) (st : AllocatorState)
    (size t al : Nat) (h0 : size ≠ 0) :
    (dxmaAllocateFn bs st size t al).2 =
      some (dx12AllocateFn bs st size t al).2 := by
  simp only [dx12AllocateFn, dxmaAllocateFn, dx12AllocScan_eq_allocScan, if_neg h0]
  cases hsc : allocScan (roundUp size al) t st.freeList with
  | none => rfl
  | some pa => rfl

/-- On a live list whose entries are nonempty and carry a heap handle,
the guard of dxmaFree never fires, and both Frees agree. -/
theorem dx12_free_eq (st : AllocatorState) (idx : Nat)
    (hwf : ∀ a ∈ st.live, 1 ≤ a.size ∧ a.heap = some a.heap_index) :
    dx12FreeOp st idx = dxmaFreeOp st idx := by
  unfold dx12FreeOp dxmaFreeOp
  split
  next h =>
    obtain ⟨hs1, hheap⟩ := hwf _ (List.getElem_mem h)
    have hg : ¬((st.live[idx]).size = 0 ∨ (st.live[idx]).heap = none) := by
      intro hor
      rcases hor with h1 | h1
      · omega
      · rw [hheap] at h1
        exact Option.noConfusion h1
    rw [if_neg hg, dx12InsertFree_eq_insertFree]
  next h => rfl

/-- Lockstep run of the two variants from a common invariant state. -/
theorem dxma_dx12_lockstep (bs : Nat) (hbs : 4 * bs < M) (tr : List Op) :
    ∀ st : AllocatorState, Inv bs st → (∀ op ∈ tr, opValid bs op) →
      tr.foldl (dx12Step bs) st = tr.foldl (dxmaStep bs) st := by
  induction tr with
  | nil =>
    intro st _ _
    rfl
  | cons op rest ih =>
    intro st hinv hval
    rw [List.foldl_cons, List.foldl_cons]
    have hstep : dx12Step bs st op = dxmaStep bs st op := by
      cases op with
      | alloc s t al => exact dx12_alloc_state_eq bs st s t al
      | free i =>
        exact dx12_free_eq st i
          (fun a ha => ⟨(hinv.live_wf a ha).2.1, (hinv.live_wf a ha).2.2.2⟩)
    rw [hstep]
    exact ih _ (inv_step bs hbs st op hinv (hval op (List.mem_cons_self op rest)))
      (fun o ho => hval o (List.mem_cons_of_mem op ho))

/-- C9 (amended): when the two variants are configured with the same
block size and driven by the same valid operation sequence, they go
through identical abstract states (free list, heap count, capacities,
heap array, live set), and at every reachable state an Allocate of
nonzero size returns the same allocation in both.  With the shipped
configurations the block sizes differ (c9_cx), and without the validity
restriction the missing guard of dx12_ma Free makes the states diverge
(c9_cx). -/
theorem c9_variants_equiv (bs : Nat) (tr : List Op) (hbs : 4 * bs < M)
    (hval : traceValid bs tr) :
    runDx12 bs tr = runDxma bs tr ∧
    ∀ size t al, size ≠ 0 →
      (dxmaAllocateFn bs (runDxma bs tr) size t al).2 =
        some (dx12AllocateFn bs (runDx12 bs tr) size t al).2 := by
  have hst : runDx12 bs tr = runDxma bs tr :=
    dxma_dx12_lockstep bs hbs tr initState (inv_init bs) hval
  refine ⟨hst, ?_⟩
  intro size t al h0
  rw [hst]
  exact dx12_alloc_out_eq bs (runDxma bs tr) size t al h0

/-- Witness for c9_variants_equiv at a concrete trace. -/
theorem c9_variants_equiv_witness :
    4 * DXMA_HEAP_BLOCK_SIZE < M ∧
    traceValid DXMA_HEAP_BLOCK_SIZE [Op.alloc 100 2 0, Op.free 0] ∧
    runDx12 DXMA_HEAP_BLOCK_SIZE [Op.alloc 100 2 0, Op.free 0] =
      runDxma DXMA_HEAP_BLOCK_SIZE [Op.alloc 100 2 0, Op.free 0] :=
  ⟨by decide, by decide,
   (c9_variants_equiv DXMA_HEAP_BLOCK_SIZE [Op.alloc 100 2 0, Op.free 0]
     (by decide) (by decide)).1⟩

end Dxma
